import Mathlib

/-!
# NonBlockingRtttl

A shallow embedding of `src/NonBlockingRtttl.cpp` (namespace `rtttl`): the RTTTL
header parser `begin`, the note tokenizer and programmer `nextnote`, the polling
entry point `play`, `stop`, and the queries `done` and `isPlaying`.

Conventions of the embedding.

* The song buffer is a `List Char`; the C string's terminating NUL sits at index
  `text.length`. The pointer `buffer` is an index into it. Dereferencing an index
  larger than `text.length` is reported as `Fault.outOfBounds`.
* `int` is `Int` wrapped to `Platform.intBits` bits (16 on AVR, 32 on ESP32);
  `long` is `Int` wrapped to 32 bits; `unsigned long` is `Nat` reduced modulo
  `2 ^ 32`; `byte` is `Nat` reduced modulo `256`. `/` on `long` is C division
  (truncation toward zero), and a zero divisor is reported as `Fault.divByZero`.
* `millis()` is an input: every function that reads the clock takes the reading
  as an argument.
* `tone` and `noTone` are recorded as a list of `Cmd` in the order of the calls.
-/

namespace rtttl

/-- Undefined behaviour of the C++ code that the embedding reports. -/
inductive Fault where
  | outOfBounds (index : Nat)
  | divByZero
  deriving DecidableEq, Repr

/-- What the build target and `NonBlockingRtttl.h` supply: the width of `int`
and the values of the `NOTE_*` macros (the header is not part of `src/`, so the
frequencies are parameters). -/
structure Platform where
  intBits : Nat
  NOTE_C4 : Int
  NOTE_CS4 : Int
  NOTE_D4 : Int
  NOTE_DS4 : Int
  NOTE_E4 : Int
  NOTE_F4 : Int
  NOTE_FS4 : Int
  NOTE_G4 : Int
  NOTE_GS4 : Int
  NOTE_A4 : Int
  NOTE_AS4 : Int
  NOTE_B4 : Int
  NOTE_C5 : Int
  NOTE_CS5 : Int
  NOTE_D5 : Int
  NOTE_DS5 : Int
  NOTE_E5 : Int
  NOTE_F5 : Int
  NOTE_FS5 : Int
  NOTE_G5 : Int
  NOTE_GS5 : Int
  NOTE_A5 : Int
  NOTE_AS5 : Int
  NOTE_B5 : Int
  NOTE_C6 : Int
  NOTE_CS6 : Int
  NOTE_D6 : Int
  NOTE_DS6 : Int
  NOTE_E6 : Int
  NOTE_F6 : Int
  NOTE_FS6 : Int
  NOTE_G6 : Int
  NOTE_GS6 : Int
  NOTE_A6 : Int
  NOTE_AS6 : Int
  NOTE_B6 : Int
  NOTE_C7 : Int
  NOTE_CS7 : Int
  NOTE_D7 : Int
  NOTE_DS7 : Int
  NOTE_E7 : Int
  NOTE_F7 : Int
  NOTE_FS7 : Int
  NOTE_G7 : Int
  NOTE_GS7 : Int
  NOTE_A7 : Int
  NOTE_AS7 : Int
  NOTE_B7 : Int

/-- The table `notes[]` (lines 18-24): a leading 0, then octaves 4 to 7. -/
def notes (pf : Platform) : List Int :=
  [0,
   pf.NOTE_C4, pf.NOTE_CS4, pf.NOTE_D4, pf.NOTE_DS4, pf.NOTE_E4, pf.NOTE_F4,
   pf.NOTE_FS4, pf.NOTE_G4, pf.NOTE_GS4, pf.NOTE_A4, pf.NOTE_AS4, pf.NOTE_B4,
   pf.NOTE_C5, pf.NOTE_CS5, pf.NOTE_D5, pf.NOTE_DS5, pf.NOTE_E5, pf.NOTE_F5,
   pf.NOTE_FS5, pf.NOTE_G5, pf.NOTE_GS5, pf.NOTE_A5, pf.NOTE_AS5, pf.NOTE_B5,
   pf.NOTE_C6, pf.NOTE_CS6, pf.NOTE_D6, pf.NOTE_DS6, pf.NOTE_E6, pf.NOTE_F6,
   pf.NOTE_FS6, pf.NOTE_G6, pf.NOTE_GS6, pf.NOTE_A6, pf.NOTE_AS6, pf.NOTE_B6,
   pf.NOTE_C7, pf.NOTE_CS7, pf.NOTE_D7, pf.NOTE_DS7, pf.NOTE_E7, pf.NOTE_F7,
   pf.NOTE_FS7, pf.NOTE_G7, pf.NOTE_GS7, pf.NOTE_A7, pf.NOTE_AS7, pf.NOTE_B7]

/-- The read `notes[idx]`; `none` when `idx` lies outside the 49 entries (the C
read is then outside the array and its value is indeterminate). -/
def tableAt (pf : Platform) (idx : Int) : Option Int :=
  if 0 ≤ idx then (notes pf)[idx.toNat]? else none

/-- A platform with the frequencies of the usual Arduino `pitches.h` and the
given width of `int`; used to evaluate the embedding on concrete songs. -/
def arduino (bits : Nat) : Platform :=
  { intBits := bits
    NOTE_C4 := 262, NOTE_CS4 := 277, NOTE_D4 := 294, NOTE_DS4 := 311,
    NOTE_E4 := 330, NOTE_F4 := 349, NOTE_FS4 := 370, NOTE_G4 := 392,
    NOTE_GS4 := 415, NOTE_A4 := 440, NOTE_AS4 := 466, NOTE_B4 := 494,
    NOTE_C5 := 523, NOTE_CS5 := 554, NOTE_D5 := 587, NOTE_DS5 := 622,
    NOTE_E5 := 659, NOTE_F5 := 698, NOTE_FS5 := 740, NOTE_G5 := 784,
    NOTE_GS5 := 831, NOTE_A5 := 880, NOTE_AS5 := 932, NOTE_B5 := 988,
    NOTE_C6 := 1047, NOTE_CS6 := 1109, NOTE_D6 := 1175, NOTE_DS6 := 1245,
    NOTE_E6 := 1319, NOTE_F6 := 1397, NOTE_FS6 := 1480, NOTE_G6 := 1568,
    NOTE_GS6 := 1661, NOTE_A6 := 1760, NOTE_AS6 := 1865, NOTE_B6 := 1976,
    NOTE_C7 := 2093, NOTE_CS7 := 2217, NOTE_D7 := 2349, NOTE_DS7 := 2489,
    NOTE_E7 := 2637, NOTE_F7 := 2794, NOTE_FS7 := 2960, NOTE_G7 := 3136,
    NOTE_GS7 := 3322, NOTE_A7 := 3520, NOTE_AS7 := 3729, NOTE_B7 := 3951 }

/-- AVR boards: `int` has 16 bits. -/
def avr : Platform := arduino 16

/-- ESP32 boards: `int` has 32 bits. -/
def esp32 : Platform := arduino 32

/-- Two's-complement wrap of a signed value to `bits` bits. -/
def wrapSigned (bits : Nat) (x : Int) : Int :=
  (x + 2 ^ (bits - 1)) % 2 ^ bits - 2 ^ (bits - 1)

/-- Wrap of a `long` (32 bits on both targets). -/
def wrapLong (x : Int) : Int :=
  (x + 2147483648) % 4294967296 - 2147483648

/-- Conversion to `byte`. -/
def toByte (x : Int) : Nat := (x % 256).toNat

/-- Conversion to `unsigned long`. -/
def toULong (x : Int) : Nat := (x % 4294967296).toNat

/-- The string terminator. -/
def NUL : Char := Char.ofNat 0

/-- The globals of lines 29-37, with the song buffer and the pointer into it
kept apart: `text` is the C string `iSongBuffer`, `buffer` the offset of the
pointer `buffer` from its start. -/
structure State where
  text : List Char
  buffer : Nat
  bufferIndex : Int
  default_dur : Nat
  default_oct : Nat
  bpm : Int
  wholenote : Int
  pin : Nat
  noteDelay : Nat
  playing : Bool
  deriving DecidableEq, Repr

/-- The globals as initialised at program start (lines 29-37). -/
def init : State :=
  { text := [], buffer := 0, bufferIndex := -32760, default_dur := 4,
    default_oct := 5, bpm := 63, wholenote := 0, pin := 255, noteDelay := 0,
    playing := false }

/-- A call on the tone backend, with the arguments as the code passes them.
`frq` is the value read from `notes[]`. -/
inductive Cmd where
  | noTone (pin : Nat)
  | tone (pin : Nat) (frq : Option Int) (duration : Int)
  deriving DecidableEq, Repr

/-- What one run of lines 182-224 computes: `note`, `scale` and `duration`. -/
structure NoteEvent where
  note : Nat
  scale : Nat
  duration : Int
  deriving DecidableEq, Repr

/-- The read `*buffer` with `buffer` at offset `i`. -/
def peek (text : List Char) (i : Nat) : Except Fault Char :=
  if i ≤ text.length then .ok (text.getD i NUL) else .error (.outOfBounds i)

/-- The loop `while (isdigit(*buffer)) num = (num * 10) + (*buffer++ - '0');`
run over the characters from the cursor on; returns the cursor and `num`. -/
def digitLoop (bits : Nat) : List Char → Nat → Int → Nat × Int
  | [], i, num => (i, num)
  | c :: cs, i, num =>
    if c.isDigit then
      digitLoop bits cs (i + 1) (wrapSigned bits (num * 10 + ((c.toNat : Int) - 48)))
    else (i, num)

/-- The statements `num = 0; while (isdigit(*buffer)) ...` with the cursor at `i`. -/
def readNumber (pf : Platform) (text : List Char) (i : Nat) : Except Fault (Nat × Int) :=
  if i ≤ text.length then .ok (digitLoop pf.intBits (text.drop i) i 0)
  else .error (.outOfBounds i)

/-- The loop `while (*buffer != ':') buffer++;` over the characters from the
cursor on: the index of the first `:`, if there is one. -/
def colonLoop : List Char → Nat → Option Nat
  | [], _ => none
  | c :: cs, i => if c = ':' then some i else colonLoop cs (i + 1)

/-- The loop `while (*buffer != ':') buffer++;` (line 127). Without a `:` the
loop passes the terminating NUL and reads at `text.length + 1`. -/
def skipName (text : List Char) (i : Nat) : Except Fault Nat :=
  if i ≤ text.length then
    match colonLoop (text.drop i) i with
    | some j => .ok j
    | none => .error (.outOfBounds (text.length + 1))
  else .error (.outOfBounds i)

/-- Lines 133-141 of `begin`: the field `d=`. Returns the cursor and
`default_dur`. -/
def durationField (pf : Platform) (text : List Char) (i default_dur : Nat) :
    Except Fault (Nat × Nat) := do
  let c ← peek text i
  if c = 'd' then do
    let (i', num) ← readNumber pf text (i + 2)
    pure (i' + 1, if num > 0 then toByte num else default_dur)
  else pure (i, default_dur)

/-- Lines 144-149 of `begin`: the field `o=`. Returns the cursor and
`default_oct`. -/
def octaveField (text : List Char) (i default_oct : Nat) : Except Fault (Nat × Nat) := do
  let c ← peek text i
  if c = 'o' then do
    let c' ← peek text (i + 2)
    let num : Int := (c'.toNat : Int) - 48
    pure (i + 2 + 1 + 1, if 3 ≤ num ∧ num ≤ 7 then toByte num else default_oct)
  else pure (i, default_oct)

/-- Lines 152-160 of `begin`: the field `b=`. Returns the cursor and `bpm`. -/
def bpmField (pf : Platform) (text : List Char) (i : Nat) (bpm : Int) :
    Except Fault (Nat × Int) := do
  let c ← peek text i
  if c = 'b' then do
    let (i', num) ← readNumber pf text (i + 2)
    pure (i' + 1, num)
  else pure (i, bpm)

/-- The function `begin` (lines 100-168), called in state `s`. Every global is
assigned: `pin`, `buffer`, `bufferIndex`, `default_dur`, `default_oct`, `bpm`,
`playing` and `noteDelay` on lines 107-122, `wholenote` on line 162. The call
`ledcAttach` of lines 108-114 (ESP32 core 3 only) sets up the tone backend and
is not recorded; `noTone(pin)` of line 124 is. -/
def begin (pf : Platform) (s : State) (iPin : Nat) (iSongBuffer : List Char) :
    Except Fault (State × List Cmd) := do
  let j ← skipName iSongBuffer 0
  let (i, default_dur) ← durationField pf iSongBuffer (j + 1) 4
  let (i, default_oct) ← octaveField iSongBuffer i 6
  let (i, bpm) ← bpmField pf iSongBuffer i 63
  if bpm = 0 then throw Fault.divByZero
  else
    pure ({ s with text := iSongBuffer, buffer := i, bufferIndex := 0,
                   default_dur := default_dur, default_oct := default_oct, bpm := bpm,
                   wholenote := Int.tdiv 60000 bpm * 4, pin := iPin, noteDelay := 0,
                   playing := true },
          [Cmd.noTone iPin])

/-- The `switch (*buffer)` of lines 194-204. -/
def noteOf (c : Char) : Nat :=
  if c = 'c' then 1
  else if c = 'd' then 3
  else if c = 'e' then 5
  else if c = 'f' then 6
  else if c = 'g' then 8
  else if c = 'a' then 10
  else if c = 'b' then 12
  else 0

/-- The statement `duration += duration / 2;`. -/
def dotted (duration : Int) : Int := wrapLong (duration + Int.tdiv duration 2)

/-- The macro `OCTAVE_OFFSET` (line 26). -/
def OCTAVE_OFFSET : Nat := 0

/-- The statement `if (*buffer == '#') { note++; buffer++; }` (line 207). -/
def sharpStep (text : List Char) (note i : Nat) : Except Fault (Nat × Nat) := do
  let c ← peek text i
  if c = '#' then pure (note + 1, i + 1) else pure (note, i)

/-- The statement `if (*buffer == '.') { duration += duration / 2; buffer++; }`
(line 208 and lines 219-222). -/
def dotStep (text : List Char) (duration : Int) (i : Nat) : Except Fault (Int × Nat) := do
  let c ← peek text i
  if c = '.' then pure (dotted duration, i + 1) else pure (duration, i)

/-- The statement `if (isdigit(*buffer)) { scale = *buffer - '0'; buffer++; }
else { scale = default_oct; }` (lines 210-215). -/
def octaveStep (text : List Char) (default_oct i : Nat) : Except Fault (Nat × Nat) := do
  let c ← peek text i
  if c.isDigit then pure (c.toNat - 48, i + 1) else pure (default_oct, i)

/-- The statement `if (*buffer == ',') buffer++;` (line 224). -/
def commaStep (text : List Char) (i : Nat) : Except Fault Nat := do
  let c ← peek text i
  if c = ',' then pure (i + 1) else pure i

/-- The statement `if (num) duration = wholenote / num; else duration =
wholenote / default_dur;` (lines 187-190). -/
def baseDuration (s : State) (num : Int) : Except Fault Int :=
  if num ≠ 0 then pure (Int.tdiv s.wholenote num)
  else if s.default_dur = 0 then throw Fault.divByZero
  else pure (Int.tdiv s.wholenote s.default_dur)

/-- Lines 182-224 of `nextnote`: the tokenizer. Returns the note read and the
cursor after it. `note` and `scale` are bytes; they stay far below 256 here
(`note` is at most 13, `scale` a digit or `default_oct`). -/
def nextnoteToken (pf : Platform) (s : State) : Except Fault (NoteEvent × Nat) := do
  let (i, num) ← readNumber pf s.text s.buffer
  let duration ← baseDuration s num
  let c ← peek s.text i
  let (note, i) ← sharpStep s.text (noteOf c) (i + 1)
  let (duration, i) ← dotStep s.text duration i
  let (scale, i) ← octaveStep s.text s.default_oct i
  let scale := scale + OCTAVE_OFFSET
  let (duration, i) ← dotStep s.text duration i
  let i ← commaStep s.text i
  pure ({ note := note, scale := scale, duration := duration }, i)

/-- The function `nextnote` (lines 174-243); `millis` is the clock reading of
lines 235 and 241. The third component of the result records the note that was
tokenized (the C function returns nothing). -/
def nextnote (pf : Platform) (s : State) (millis : Nat) :
    Except Fault (State × List Cmd × NoteEvent) := do
  let (ev, i) ← nextnoteToken pf s
  if ev.note ≠ 0 then
    pure ({ s with buffer := i,
                   noteDelay := toULong ((millis : Int) + wrapLong (ev.duration + 1)) },
          [Cmd.noTone s.pin,
           Cmd.tone s.pin (tableAt pf (((ev.scale : Int) - 4) * 12 + ev.note)) ev.duration],
          ev)
  else
    pure ({ s with buffer := i, noteDelay := toULong ((millis : Int) + ev.duration) },
          [Cmd.noTone s.pin], ev)

/-- The loop `while (*buffer != '\0') buffer++;` over the characters from the
cursor on. -/
def nulLoop : List Char → Nat → Nat
  | [], i => i
  | c :: cs, i => if c = NUL then i else nulLoop cs (i + 1)

/-- The function `stop` (lines 270-277). -/
def stop (s : State) : Except Fault (State × List Cmd) :=
  if s.playing then
    if s.buffer ≤ s.text.length then
      pure ({ s with buffer := nulLoop (s.text.drop s.buffer) s.buffer, playing := false },
            [Cmd.noTone s.pin])
    else throw (Fault.outOfBounds s.buffer)
  else pure (s, [])

/-- The function `play` (lines 249-264); `m` is the clock reading of line 254,
`millis` the one `nextnote` takes. The third component of the result is the
note tokenized by this call, if any. -/
def play (pf : Platform) (s : State) (m millis : Nat) :
    Except Fault (State × List Cmd × Option NoteEvent) :=
  if !s.playing then pure (s, [], none)
  else if m < s.noteDelay then pure (s, [], none)
  else do
    let c ← peek s.text s.buffer
    if c = NUL then do
      let (s', cmds) ← stop s
      pure (s', cmds, none)
    else do
      let (s', cmds, ev) ← nextnote pf s millis
      pure (s', cmds, some ev)

/-- The function `done` (line 283). -/
def done (s : State) : Bool := !s.playing

/-- The function `isPlaying` (line 284). -/
def isPlaying (s : State) : Bool := s.playing

/-! ## Vocabulary of the statements -/

/-- The cursor `i` stands in front of the suffix `r` of `text`. -/
def At (text : List Char) (i : Nat) (r : List Char) : Prop :=
  ∃ a, text = a ++ r ∧ i = a.length

/-- The decimal value of a digit string, read left to right. -/
def digitsValue (ds : List Char) : Nat :=
  ds.foldl (fun n c => n * 10 + (c.toNat - 48)) 0

/-- The pitch table as the specification words it:
`c→1, d→3, e→5, f→6, g→8, a→10, b→12, p→0`, any other character a rest. -/
def specPitchClass : Char → Nat
  | 'c' => 1
  | 'd' => 3
  | 'e' => 5
  | 'f' => 6
  | 'g' => 8
  | 'a' => 10
  | 'b' => 12
  | 'p' => 0
  | _ => 0

/-- A note token as the format writes it:
`[digits] letter ['#'] ['.'] [octave digit] ['.'] [',']`. -/
structure Token where
  digits : List Char
  letter : Char
  sharp : Bool
  dot1 : Bool
  octave : Option Char
  dot2 : Bool
  comma : Bool

/-- The characters of a token after its pitch letter. -/
def Token.tail (t : Token) : List Char :=
  (if t.sharp then ['#'] else []) ++ ((if t.dot1 then ['.'] else []) ++
    (t.octave.toList ++ ((if t.dot2 then ['.'] else []) ++ (if t.comma then [','] else []))))

/-- The characters of a token. -/
def Token.chars (t : Token) : List Char := t.digits ++ t.letter :: t.tail

/-- The parts of the token are what their names say: the duration is made of
digits, the pitch letter is not a digit, the octave is a digit, and a single dot
without an octave digit is counted as the first dot. -/
def Token.WellFormed (t : Token) : Prop :=
  (∀ c ∈ t.digits, c.isDigit = true) ∧ t.letter.isDigit = false ∧
  (∀ k ∈ t.octave, k.isDigit = true) ∧ (t.octave = none → t.dot2 = true → t.dot1 = true)

/-- The token ends where its characters end: it carries its comma, or the next
character (NUL at the end of the text) cannot continue it. -/
def Token.EndsBefore (t : Token) (next : Char) : Prop :=
  t.comma = false → next ≠ ',' ∧ next ≠ '.' ∧ next ≠ '#' ∧ next.isDigit = false

/-- The value of `num` once the digit loop has read the digit string `ds`: its
decimal value, wrapped to the width of `int`. -/
def numOf (pf : Platform) (ds : List Char) : Int := (digitLoop pf.intBits ds 0 0).2

/-- The base duration of a token, before any dot is applied: the whole note
divided by `num`, or by `default_dur` when `num` is zero. -/
def Token.base (t : Token) (pf : Platform) (s : State) : Int :=
  if numOf pf t.digits ≠ 0 then Int.tdiv s.wholenote (numOf pf t.digits)
  else Int.tdiv s.wholenote s.default_dur

/-- The note a token stands for in state `s`. -/
def Token.event (t : Token) (pf : Platform) (s : State) : NoteEvent :=
  { note := specPitchClass t.letter + (if t.sharp then 1 else 0)
    scale := t.octave.elim s.default_oct (fun k => k.toNat - 48)
    duration :=
      if t.dot2 then dotted (if t.dot1 then dotted (t.base pf s) else t.base pf s)
      else if t.dot1 then dotted (t.base pf s) else t.base pf s }

/-- The state `begin` leaves on pin 8 for a header without fields (duration 4,
octave 6, 63 beats per minute), with the cursor at index `i` of `text`. -/
def playingAt (text : List Char) (i : Nat) : State :=
  { text := text, buffer := i, bufferIndex := 0, default_dur := 4, default_oct := 6,
    bpm := 63, wholenote := 3808, pin := 8, noteDelay := 0, playing := true }

/-- The header fields of a song as the format writes them,
`[d=<int>,][o=<digit>,][b=<int>:]`: the digits of `d=`, the character after
`o=`, the digits of `b=`; `none` for a field that is absent. -/
structure Header where
  dur : Option (List Char)
  oct : Option Char
  bpm : Option (List Char)

/-- The characters of the field `d=<int>,`. -/
def Header.durChars (h : Header) : List Char :=
  match h.dur with
  | some D => 'd' :: '=' :: (D ++ [','])
  | none => []

/-- The characters of the field `o=<digit>,`. -/
def Header.octChars (h : Header) : List Char :=
  match h.oct with
  | some O => ['o', '=', O, ',']
  | none => []

/-- The characters of the field `b=<int>:`. -/
def Header.bpmChars (h : Header) : List Char :=
  match h.bpm with
  | some B => 'b' :: '=' :: (B ++ [':'])
  | none => []

/-- The characters of the header after the name's `:`. -/
def Header.chars (h : Header) : List Char := h.durChars ++ (h.octChars ++ h.bpmChars)

/-- The numbers of the fields are digit strings, and a `b=` field does not
leave `bpm` at zero. -/
def Header.WellFormed (pf : Platform) (h : Header) : Prop :=
  (∀ D ∈ h.dur, ∀ c ∈ D, c.isDigit = true) ∧
  (∀ B ∈ h.bpm, (∀ c ∈ B, c.isDigit = true) ∧ numOf pf B ≠ 0)

/-- No absent field is mistaken for a present one: where `begin` tests for an
absent field, the character is not that field's letter. -/
def Header.Unambiguous (h : Header) (notes : List Char) : Prop :=
  (h.dur = none → (h.octChars ++ (h.bpmChars ++ notes)).headD NUL ≠ 'd') ∧
  (h.oct = none → (h.bpmChars ++ notes).headD NUL ≠ 'o') ∧
  (h.bpm = none → notes.headD NUL ≠ 'b')

/-- The duration denominator `begin` stores for the header. -/
def Header.durValue (pf : Platform) (h : Header) : Nat :=
  match h.dur with
  | some D => if 0 < numOf pf D then toByte (numOf pf D) else 4
  | none => 4

/-- The octave `begin` stores for the header. -/
def Header.octValue (h : Header) : Nat :=
  match h.oct with
  | some O => if 3 ≤ O.toNat - 48 ∧ O.toNat - 48 ≤ 7 then O.toNat - 48 else 6
  | none => 6

/-- The beats per minute `begin` stores for the header. -/
def Header.bpmValue (pf : Platform) (h : Header) : Int :=
  match h.bpm with
  | some B => numOf pf B
  | none => 63

/-- A run of polls; each poll is the pair of clock readings it takes (the one
of `play`, line 254, and the one of `nextnote`). Returns the last state, the
notes tokenized, in order, and the fault that ended the run, if any. -/
def polls (pf : Platform) : State → List (Nat × Nat) → State × List NoteEvent × Option Fault
  | s, [] => (s, [], none)
  | s, p :: ps =>
    match play pf s p.1 p.2 with
    | .error e => (s, [], some e)
    | .ok r => ((polls pf r.1 ps).1, r.2.2.toList ++ (polls pf r.1 ps).2.1, (polls pf r.1 ps).2.2)

/-- The notes of the text from index `i` on, tokenized from left to right with
the configuration of `s`, up to the terminating NUL (or to the first fault);
`fuel` bounds the number of notes. -/
def tokenizeFrom (pf : Platform) (s : State) : Nat → Nat → List NoteEvent
  | 0, _ => []
  | fuel + 1, i =>
    match peek s.text i with
    | .error _ => []
    | .ok c =>
      if c = NUL then []
      else
        match nextnoteToken pf { s with buffer := i } with
        | .error _ => []
        | .ok r => r.1 :: tokenizeFrom pf s fuel r.2

/-- The notes of the note section from the cursor on. Every note takes at least
one character, so `text.length + 1` notes are never reached. -/
def noteSection (pf : Platform) (s : State) : List NoteEvent :=
  tokenizeFrom pf s (s.text.length + 1) s.buffer

/-- Lines 258-263 of `play`: what a poll does once it is due. -/
def duePoll (pf : Platform) (s : State) (millis : Nat) :
    Except Fault (State × List Cmd × Option NoteEvent) :=
  match peek s.text s.buffer with
  | .error e => .error e
  | .ok c =>
    if c = NUL then (stop s).map (fun r => (r.1, r.2, none))
    else (nextnote pf s millis).map (fun r => (r.1, r.2.1, some r.2.2))

/-- A call of one of the entry points after `begin`: `play` with its two clock
readings, or `stop`. -/
inductive Call where
  | poll (m millis : Nat)
  | stop
  deriving DecidableEq, Repr

/-- The state after one call. -/
def call (pf : Platform) (s : State) : Call → Except Fault State
  | .poll m millis => (play pf s m millis).map (fun r => r.1)
  | .stop => (stop s).map (fun r => r.1)

/-- The state after a sequence of calls; a fault ends the sequence. -/
def calls (pf : Platform) : State → List Call → Except Fault State
  | s, [] => .ok s
  | s, c :: cs =>
    match call pf s c with
    | .error e => .error e
    | .ok s' => calls pf s' cs

/-- The characters of a note section: its tokens one after the other. -/
def sectionChars : List Token → List Char
  | [] => []
  | t :: ts => t.chars ++ sectionChars ts

/-- A note section in the documented format `note{,note}`: every token is well
formed and has a pitch letter that is a character of the text, and every token
but the last carries the comma that separates it from the next. -/
def SectionWellFormed : List Token → Prop
  | [] => True
  | t :: ts => t.WellFormed ∧ t.letter ≠ NUL ∧ (ts ≠ [] → t.comma = true) ∧ SectionWellFormed ts

/-! ## Lemmas on the cursor, the digit loop and the tokenizer -/

theorem At.le {text : List Char} {i : Nat} {r : List Char} (h : At text i r) :
    i ≤ text.length := by
  obtain ⟨a, rfl, rfl⟩ := h
  simp

theorem At.drop {text : List Char} {i : Nat} {r : List Char} (h : At text i r) :
    text.drop i = r := by
  obtain ⟨a, rfl, rfl⟩ := h
  simp

theorem At.peek_eq {text : List Char} {i : Nat} {r : List Char} (h : At text i r) :
    peek text i = .ok (r.headD NUL) := by
  obtain ⟨a, rfl, rfl⟩ := h
  cases r with
  | nil => simp [rtttl.peek]
  | cons c r =>
    have h : (a ++ c :: r)[a.length]? = some c := by
      rw [List.getElem?_append_right (le_refl _)]
      simp
    simp [rtttl.peek, List.getD_eq_getElem?_getD, h]

theorem At.next {text : List Char} {i : Nat} {c : Char} {r : List Char}
    (h : At text i (c :: r)) : At text (i + 1) r := by
  obtain ⟨a, rfl, rfl⟩ := h
  exact ⟨a ++ [c], by simp, by simp⟩

theorem At.skip {text : List Char} {i : Nat} {l r : List Char}
    (h : At text i (l ++ r)) : At text (i + l.length) r := by
  obtain ⟨a, rfl, rfl⟩ := h
  exact ⟨a ++ l, by simp, by simp⟩

theorem at_start (text : List Char) : At text 0 text := ⟨[], by simp, rfl⟩

theorem at_append (a r : List Char) : At (a ++ r) a.length r := ⟨a, rfl, rfl⟩

theorem wrapSigned_of_fits (bits : Nat) (x : Int) (hb : 0 < bits) (h0 : 0 ≤ x)
    (h1 : x < 2 ^ (bits - 1)) : wrapSigned bits x = x := by
  unfold wrapSigned
  have hp : (2 : Int) ^ bits = 2 * 2 ^ (bits - 1) := by
    obtain ⟨k, rfl⟩ : ∃ k, bits = k + 1 := ⟨bits - 1, by omega⟩
    simp [pow_succ, mul_comm]
  rw [Int.emod_eq_of_lt (by omega) (by omega)]
  omega

theorem isDigit_toNat (c : Char) (h : c.isDigit = true) : 48 ≤ c.toNat ∧ c.toNat ≤ 57 := by
  unfold Char.isDigit at h
  simp only [Bool.and_eq_true, decide_eq_true_eq, ge_iff_le] at h
  exact ⟨h.1, h.2⟩

theorem isDigit_ne (c : Char) (h : c.isDigit = true) : c ≠ '#' ∧ c ≠ '.' ∧ c ≠ ',' := by
  refine ⟨?_, ?_, ?_⟩ <;> rintro rfl <;> simp [Char.isDigit] at h

theorem le_foldl_digits (ds : List Char) :
    ∀ a : Nat, a ≤ ds.foldl (fun n c => n * 10 + (c.toNat - 48)) a := by
  induction ds with
  | nil => intro a; simp
  | cons d ds ih =>
    intro a
    simp only [List.foldl_cons]
    exact le_trans (by omega) (ih _)

theorem digitLoop_digits (bits : Nat) (hb : 0 < bits) (ds l : List Char)
    (hds : ∀ c ∈ ds, c.isDigit = true) (hl : (l.headD NUL).isDigit = false) :
    ∀ (i a : Nat), ds.foldl (fun n c => n * 10 + (c.toNat - 48)) a < 2 ^ (bits - 1) →
      digitLoop bits (ds ++ l) i (a : Int) =
        (i + ds.length, ((ds.foldl (fun n c => n * 10 + (c.toNat - 48)) a : Nat) : Int)) := by
  induction ds with
  | nil =>
    intro i a _
    cases l with
    | nil => simp [digitLoop]
    | cons c cs =>
      simp only [List.headD_cons] at hl
      simp [digitLoop, hl]
  | cons d ds ih =>
    intro i a hfit
    have hd := isDigit_toNat d (hds d (by simp))
    simp only [List.foldl_cons] at hfit ⊢
    have hle := le_foldl_digits ds (a * 10 + (d.toNat - 48))
    have hcast : (a : Int) * 10 + ((d.toNat : Int) - 48)
        = ((a * 10 + (d.toNat - 48) : Nat) : Int) := by
      omega
    have hlt : ((a * 10 + (d.toNat - 48) : Nat) : Int) < 2 ^ (bits - 1) := by
      have : a * 10 + (d.toNat - 48) < 2 ^ (bits - 1) := lt_of_le_of_lt hle hfit
      exact_mod_cast this
    simp only [List.cons_append, digitLoop, hds d (by simp), if_true, hcast]
    change digitLoop bits (ds ++ l) (i + 1) (wrapSigned bits _) = _
    rw [wrapSigned_of_fits bits _ hb (by omega) hlt]
    rw [ih (fun c hc => hds c (by simp [hc])) (i + 1) _ hfit]
    simp only [List.length_cons, Prod.mk.injEq, and_true]
    omega

theorem digitLoop_append (bits : Nat) (ds l : List Char)
    (hds : ∀ c ∈ ds, c.isDigit = true) (hl : (l.headD NUL).isDigit = false) :
    ∀ (i j : Nat) (acc : Int),
      digitLoop bits (ds ++ l) i acc = (i + ds.length, (digitLoop bits ds j acc).2) := by
  induction ds with
  | nil =>
    intro i j acc
    cases l with
    | nil => simp [digitLoop]
    | cons c cs =>
      simp only [List.headD_cons] at hl
      simp [digitLoop, hl]
  | cons d ds ih =>
    intro i j acc
    simp only [List.cons_append, digitLoop, hds d (by simp), if_true]
    change digitLoop bits (ds ++ l) (i + 1) _ = _
    rw [ih (fun c hc => hds c (by simp [hc])) (i + 1) (j + 1)]
    simp only [List.length_cons, Prod.mk.injEq, and_true]
    omega

theorem numOf_of_fits (pf : Platform) (hb : 0 < pf.intBits) (ds : List Char)
    (hds : ∀ c ∈ ds, c.isDigit = true) (hfit : digitsValue ds < 2 ^ (pf.intBits - 1)) :
    numOf pf ds = (digitsValue ds : Int) := by
  have := digitLoop_digits pf.intBits hb ds [] hds (by decide) 0 0 hfit
  simp only [List.append_nil, Nat.cast_zero] at this
  simp only [numOf, this]
  rfl

theorem readNumber_digits (pf : Platform) (text : List Char) (i : Nat)
    (ds l : List Char) (hat : At text i (ds ++ l))
    (hds : ∀ c ∈ ds, c.isDigit = true) (hl : (l.headD NUL).isDigit = false) :
    readNumber pf text i = .ok (i + ds.length, numOf pf ds) := by
  unfold readNumber
  rw [if_pos hat.le, hat.drop, digitLoop_append pf.intBits ds l hds hl i 0 0]
  rfl

theorem readNumber_digits_fit (pf : Platform) (hb : 0 < pf.intBits) (text : List Char) (i : Nat)
    (ds l : List Char) (hat : At text i (ds ++ l))
    (hds : ∀ c ∈ ds, c.isDigit = true) (hl : (l.headD NUL).isDigit = false)
    (hfit : digitsValue ds < 2 ^ (pf.intBits - 1)) :
    readNumber pf text i = .ok (i + ds.length, (digitsValue ds : Int)) := by
  rw [readNumber_digits pf text i ds l hat hds hl, numOf_of_fits pf hb ds hds hfit]

/-! ## The optional parts of a note token -/

theorem sharpStep_hit {text : List Char} {i : Nat} {r : List Char} (note : Nat)
    (h : At text i ('#' :: r)) : sharpStep text note i = .ok (note + 1, i + 1) := by
  simp [sharpStep, h.peek_eq, bind, Except.bind, pure, Except.pure]

theorem sharpStep_miss {text : List Char} {i : Nat} {r : List Char} (note : Nat)
    (h : At text i r) (hr : r.headD NUL ≠ '#') : sharpStep text note i = .ok (note, i) := by
  simp only [sharpStep, h.peek_eq, bind, Except.bind, pure, Except.pure, if_neg hr]

theorem dotStep_hit {text : List Char} {i : Nat} {r : List Char} (d : Int)
    (h : At text i ('.' :: r)) : dotStep text d i = .ok (dotted d, i + 1) := by
  simp [dotStep, h.peek_eq, bind, Except.bind, pure, Except.pure]

theorem dotStep_miss {text : List Char} {i : Nat} {r : List Char} (d : Int)
    (h : At text i r) (hr : r.headD NUL ≠ '.') : dotStep text d i = .ok (d, i) := by
  simp only [dotStep, h.peek_eq, bind, Except.bind, pure, Except.pure, if_neg hr]

theorem octaveStep_hit {text : List Char} {i : Nat} {k : Char} {r : List Char} (o : Nat)
    (h : At text i (k :: r)) (hk : k.isDigit = true) :
    octaveStep text o i = .ok (k.toNat - 48, i + 1) := by
  simp [octaveStep, h.peek_eq, bind, Except.bind, pure, Except.pure, hk]

theorem octaveStep_miss {text : List Char} {i : Nat} {r : List Char} (o : Nat)
    (h : At text i r) (hr : (r.headD NUL).isDigit = false) :
    octaveStep text o i = .ok (o, i) := by
  simp only [octaveStep, h.peek_eq, bind, Except.bind, pure, Except.pure, hr, Bool.false_eq_true, if_false]

theorem commaStep_hit {text : List Char} {i : Nat} {r : List Char}
    (h : At text i (',' :: r)) : commaStep text i = .ok (i + 1) := by
  simp [commaStep, h.peek_eq, bind, Except.bind, pure, Except.pure]

theorem commaStep_miss {text : List Char} {i : Nat} {r : List Char}
    (h : At text i r) (hr : r.headD NUL ≠ ',') : commaStep text i = .ok i := by
  simp only [commaStep, h.peek_eq, bind, Except.bind, pure, Except.pure, if_neg hr]

theorem sharpStep_flag {text : List Char} {i : Nat} {r : List Char} (b : Bool) (note : Nat)
    (h : At text i ((if b then ['#'] else []) ++ r)) (hr : b = false → r.headD NUL ≠ '#') :
    sharpStep text note i = .ok (note + (if b then 1 else 0), i + (if b then 1 else 0)) ∧
      At text (i + (if b then 1 else 0)) r := by
  cases b
  · exact ⟨sharpStep_miss note h (hr rfl), h⟩
  · exact ⟨sharpStep_hit note h, h.next⟩

theorem dotStep_flag {text : List Char} {i : Nat} {r : List Char} (b : Bool) (d : Int)
    (h : At text i ((if b then ['.'] else []) ++ r)) (hr : b = false → r.headD NUL ≠ '.') :
    dotStep text d i = .ok (if b then dotted d else d, i + (if b then 1 else 0)) ∧
      At text (i + (if b then 1 else 0)) r := by
  cases b
  · exact ⟨dotStep_miss d h (hr rfl), h⟩
  · exact ⟨dotStep_hit d h, h.next⟩

theorem octaveStep_flag {text : List Char} {i : Nat} {r : List Char} (K : Option Char) (o : Nat)
    (h : At text i (K.toList ++ r)) (hK : ∀ k ∈ K, k.isDigit = true)
    (hr : K = none → (r.headD NUL).isDigit = false) :
    octaveStep text o i = .ok (K.elim o (fun k => k.toNat - 48), i + K.toList.length) ∧
      At text (i + K.toList.length) r := by
  cases K with
  | none => exact ⟨octaveStep_miss o h (hr rfl), h⟩
  | some k => exact ⟨octaveStep_hit o h (hK k rfl), h.next⟩

theorem commaStep_flag {text : List Char} {i : Nat} {r : List Char} (b : Bool)
    (h : At text i ((if b then [','] else []) ++ r)) (hr : b = false → r.headD NUL ≠ ',') :
    commaStep text i = .ok (i + (if b then 1 else 0)) ∧ At text (i + (if b then 1 else 0)) r := by
  cases b
  · exact ⟨commaStep_miss h (hr rfl), h⟩
  · exact ⟨commaStep_hit h, h.next⟩

theorem noteOf_eq_spec (c : Char) : noteOf c = specPitchClass c := by
  unfold specPitchClass
  split <;> simp_all [noteOf]

theorem nextnoteToken_token (pf : Platform) (s : State) (rest : List Char) (t : Token)
    (hwf : t.WellFormed) (hat : At s.text s.buffer (t.chars ++ rest))
    (hD0 : numOf pf t.digits = 0 → s.default_dur ≠ 0)
    (hnext : t.EndsBefore (rest.headD NUL)) :
    nextnoteToken pf s = .ok (t.event pf s, s.buffer + t.chars.length) := by
  obtain ⟨ds, L, sharp, dot1, K, dot2, comma⟩ := t
  obtain ⟨hds, hL, hK, hnorm⟩ := hwf
  simp only at hds hL hK hnorm hD0
  simp only [Token.EndsBefore] at hnext
  simp only [Token.chars, Token.tail, List.append_assoc, List.cons_append] at hat
  have hrd := readNumber_digits pf s.text s.buffer ds _ hat hds (by simpa using hL)
  have h1 := hat.skip
  have hL' := h1.peek_eq
  simp only [List.headD_cons] at hL'
  have hKne := fun k hk => isDigit_ne k (hK k hk)
  obtain ⟨e2, h2⟩ := sharpStep_flag sharp (noteOf L) h1.next (by
    intro hs
    cases dot1 <;> cases dot2 <;> cases comma <;> cases K <;> simp_all)
  have hs3 : dot1 = false → (K.toList ++ ((if dot2 = true then ['.'] else []) ++
      ((if comma = true then [','] else []) ++ rest))).headD NUL ≠ '.' := by
    intro hs
    cases dot2 <;> cases comma <;> cases K <;> simp_all
  have e3 := fun d => (dotStep_flag dot1 d h2 hs3).1
  have h3 := (dotStep_flag dot1 0 h2 hs3).2
  obtain ⟨e4, h4⟩ := octaveStep_flag K s.default_oct h3 hK (by
    intro hs
    cases dot2 <;> cases comma <;> simp_all [Char.isDigit])
  have hs5 : dot2 = false →
      (((if comma = true then [','] else []) ++ rest)).headD NUL ≠ '.' := by
    intro hs
    cases comma <;> simp_all
  have e5 := fun d => (dotStep_flag dot2 d h4 hs5).1
  have h5 := (dotStep_flag dot2 0 h4 hs5).2
  obtain ⟨e6, _⟩ := commaStep_flag comma h5 (by
    intro hs
    simp_all)
  have hlen : s.buffer + (ds ++ L :: ((if sharp = true then ['#'] else []) ++
      ((if dot1 = true then ['.'] else []) ++ (K.toList ++
        ((if dot2 = true then ['.'] else []) ++ if comma = true then [','] else []))))).length
      = ((((s.buffer + ds.length + 1 + if sharp = true then 1 else 0) +
          if dot1 = true then 1 else 0) + K.toList.length + if dot2 = true then 1 else 0) +
        if comma = true then 1 else 0) := by
    cases sharp <;> cases dot1 <;> cases dot2 <;> cases comma <;> cases K <;>
      simp <;> omega
  have hdur : baseDuration s (numOf pf ds) =
      .ok (if numOf pf ds ≠ 0 then Int.tdiv s.wholenote (numOf pf ds)
        else Int.tdiv s.wholenote s.default_dur) := by
    unfold baseDuration
    by_cases hN : numOf pf ds = 0
    · simp [hN, hD0 hN, pure, Except.pure]
    · simp [hN, pure, Except.pure]
  unfold nextnoteToken
  simp only [hrd, bind, Except.bind, hdur, hL', e2, e3, e4, e5, e6, pure, Except.pure,
    Token.event, Token.base, Token.chars, Token.tail, ← noteOf_eq_spec, OCTAVE_OFFSET,
    Nat.add_zero, hlen]

/-- What `nextnote` tokenizes and where it leaves the cursor is what lines
182-224 compute. -/
theorem nextnote_event (pf : Platform) (s : State) (millis : Nat) :
    (nextnote pf s millis).map (fun r => (r.2.2, r.1.buffer)) = nextnoteToken pf s := by
  unfold nextnote
  cases h : nextnoteToken pf s with
  | error e => rfl
  | ok r =>
    obtain ⟨ev, i⟩ := r
    by_cases hn : ev.note = 0 <;> simp [bind, Except.bind, pure, Except.pure, Except.map, hn]

theorem dotted_eq (b : Int) (h0 : 0 ≤ b) (h1 : b < 2 ^ 30) : dotted b = b + b / 2 := by
  unfold dotted wrapLong
  rw [Int.tdiv_eq_ediv h0 (by norm_num)]
  norm_num at h1
  omega

theorem colonLoop_name (name r : List Char) (hname : ':' ∉ name) :
    ∀ i, colonLoop (name ++ ':' :: r) i = some (i + name.length) := by
  induction name with
  | nil => intro i; simp [colonLoop]
  | cons c cs ih =>
    intro i
    have hc : c ≠ ':' := fun h => hname (by simp [h])
    have hcs : ':' ∉ cs := fun h => hname (by simp [h])
    simp only [List.cons_append, colonLoop, hc, if_false, List.length_cons]
    change colonLoop (cs ++ ':' :: r) (i + 1) = _
    rw [ih hcs]
    exact congrArg some (by omega)

theorem skipName_name (name r : List Char) (hname : ':' ∉ name) :
    skipName (name ++ ':' :: r) 0 = .ok name.length := by
  simp [skipName, colonLoop_name name r hname]

theorem toByte_natCast (n : Nat) : toByte (n : Int) = n % 256 := by
  unfold toByte
  omega

theorem durationField_absent (pf : Platform) {text : List Char} {i : Nat} {r : List Char}
    (d0 : Nat) (h : At text i r) (hr : r.headD NUL ≠ 'd') :
    durationField pf text i d0 = .ok (i, d0) := by
  simp only [durationField, h.peek_eq, bind, Except.bind, pure, Except.pure, if_neg hr]

theorem durationField_present (pf : Platform) {text : List Char} {i : Nat}
    {D r : List Char} (d0 : Nat) (h : At text i ('d' :: '=' :: (D ++ ',' :: r)))
    (hD : ∀ c ∈ D, c.isDigit = true) :
    durationField pf text i d0 =
      .ok (i + 2 + D.length + 1, if 0 < numOf pf D then toByte (numOf pf D) else d0) ∧
      At text (i + 2 + D.length + 1) r := by
  have h2 : At text (i + 2) (D ++ ',' :: r) := h.next.next
  have hrd := readNumber_digits pf text (i + 2) D (',' :: r) h2 hD (by simp [Char.isDigit])
  refine ⟨?_, h2.skip.next⟩
  simp only [durationField, h.peek_eq, List.headD_cons, bind, Except.bind, pure, Except.pure,
    if_true, hrd, gt_iff_lt]

theorem octaveField_absent {text : List Char} {i : Nat} {r : List Char}
    (o0 : Nat) (h : At text i r) (hr : r.headD NUL ≠ 'o') :
    octaveField text i o0 = .ok (i, o0) := by
  simp only [octaveField, h.peek_eq, bind, Except.bind, pure, Except.pure, if_neg hr]

theorem octaveField_present {text : List Char} {i : Nat} {O : Char} {r : List Char}
    (o0 : Nat) (h : At text i ('o' :: '=' :: O :: ',' :: r)) :
    octaveField text i o0 =
      .ok (i + 4, if 3 ≤ O.toNat - 48 ∧ O.toNat - 48 ≤ 7 then O.toNat - 48 else o0) ∧
      At text (i + 4) r := by
  have h2 : At text (i + 2) (O :: ',' :: r) := h.next.next
  refine ⟨?_, h2.next.next⟩
  simp only [octaveField, h.peek_eq, h2.peek_eq, List.headD_cons, bind, Except.bind, pure,
    Except.pure, if_true, Except.ok.injEq, Prod.mk.injEq, true_and]
  by_cases hO : 3 ≤ O.toNat - 48 ∧ O.toNat - 48 ≤ 7
  · have hO' : (3 : Int) ≤ (O.toNat : Int) - 48 ∧ (O.toNat : Int) - 48 ≤ 7 := by omega
    rw [if_pos hO, if_pos hO']
    unfold toByte
    omega
  · have hO' : ¬ ((3 : Int) ≤ (O.toNat : Int) - 48 ∧ (O.toNat : Int) - 48 ≤ 7) := by omega
    rw [if_neg hO, if_neg hO']

theorem bpmField_absent (pf : Platform) {text : List Char} {i : Nat} {r : List Char}
    (b0 : Int) (h : At text i r) (hr : r.headD NUL ≠ 'b') :
    bpmField pf text i b0 = .ok (i, b0) := by
  simp only [bpmField, h.peek_eq, bind, Except.bind, pure, Except.pure, if_neg hr]

theorem bpmField_present (pf : Platform) {text : List Char} {i : Nat}
    {B r : List Char} (b0 : Int) (h : At text i ('b' :: '=' :: (B ++ ':' :: r)))
    (hB : ∀ c ∈ B, c.isDigit = true) :
    bpmField pf text i b0 = .ok (i + 2 + B.length + 1, numOf pf B) ∧
      At text (i + 2 + B.length + 1) r := by
  have h2 : At text (i + 2) (B ++ ':' :: r) := h.next.next
  have hrd := readNumber_digits pf text (i + 2) B (':' :: r) h2 hB (by simp [Char.isDigit])
  refine ⟨?_, h2.skip.next⟩
  simp only [bpmField, h.peek_eq, List.headD_cons, bind, Except.bind, pure, Except.pure,
    if_true, hrd]

theorem durationField_header (pf : Platform) {text : List Char} {i : Nat}
    (h : Header) (r : List Char) (hat : At text i (h.durChars ++ r))
    (hwf : ∀ D ∈ h.dur, ∀ c ∈ D, c.isDigit = true)
    (hun : h.dur = none → r.headD NUL ≠ 'd') :
    durationField pf text i 4 = .ok (i + h.durChars.length, h.durValue pf) ∧
      At text (i + h.durChars.length) r := by
  obtain ⟨dur, oct, bpm⟩ := h
  cases dur with
  | none => exact ⟨durationField_absent pf 4 hat (hun rfl), hat⟩
  | some D =>
    simp only [Header.durChars, List.cons_append, List.append_assoc, List.singleton_append]
      at hat
    obtain ⟨e, h'⟩ := durationField_present pf 4 hat (hwf D rfl)
    have hl : i + (Header.durChars ⟨some D, oct, bpm⟩).length = i + 2 + D.length + 1 := by
      simp only [Header.durChars, List.length_cons, List.length_append, List.length_nil]
      omega
    rw [hl]
    exact ⟨e, h'⟩

theorem octaveField_header {text : List Char} {i : Nat}
    (h : Header) (r : List Char) (hat : At text i (h.octChars ++ r))
    (hun : h.oct = none → r.headD NUL ≠ 'o') :
    octaveField text i 6 = .ok (i + h.octChars.length, h.octValue) ∧
      At text (i + h.octChars.length) r := by
  obtain ⟨dur, oct, bpm⟩ := h
  cases oct with
  | none => exact ⟨octaveField_absent 6 hat (hun rfl), hat⟩
  | some O => exact octaveField_present 6 hat

theorem bpmField_header (pf : Platform) {text : List Char} {i : Nat}
    (h : Header) (r : List Char) (hat : At text i (h.bpmChars ++ r))
    (hwf : ∀ B ∈ h.bpm, (∀ c ∈ B, c.isDigit = true) ∧ numOf pf B ≠ 0)
    (hun : h.bpm = none → r.headD NUL ≠ 'b') :
    bpmField pf text i 63 = .ok (i + h.bpmChars.length, h.bpmValue pf) ∧
      At text (i + h.bpmChars.length) r := by
  obtain ⟨dur, oct, bpm⟩ := h
  cases bpm with
  | none => exact ⟨bpmField_absent pf 63 hat (hun rfl), hat⟩
  | some B =>
    simp only [Header.bpmChars, List.cons_append, List.append_assoc, List.singleton_append]
      at hat
    obtain ⟨e, h'⟩ := bpmField_present pf 63 hat (hwf B rfl).1
    have hl : i + (Header.bpmChars ⟨dur, oct, some B⟩).length = i + 2 + B.length + 1 := by
      simp only [Header.bpmChars, List.length_cons, List.length_append, List.length_nil]
      omega
    rw [hl]
    exact ⟨e, h'⟩

theorem bpmValue_ne_zero (pf : Platform) (h : Header) (hwf : h.WellFormed pf) :
    h.bpmValue pf ≠ 0 := by
  obtain ⟨dur, oct, bpm⟩ := h
  cases bpm with
  | none => simp [Header.bpmValue]
  | some B => exact (hwf.2 B rfl).2

/-- What `begin` does on a song `name:header notes` whose header is well formed
and unambiguous. -/
theorem begin_header (pf : Platform) (s : State) (pin : Nat) (name notes : List Char)
    (h : Header) (hname : ':' ∉ name) (hwf : h.WellFormed pf) (hun : h.Unambiguous notes) :
    begin pf s pin (name ++ ':' :: (h.chars ++ notes)) =
      .ok ({ text := name ++ ':' :: (h.chars ++ notes),
             buffer := name.length + 1 + h.chars.length,
             bufferIndex := 0,
             default_dur := h.durValue pf,
             default_oct := h.octValue,
             bpm := h.bpmValue pf,
             wholenote := Int.tdiv 60000 (h.bpmValue pf) * 4,
             pin := pin,
             noteDelay := 0,
             playing := true },
           [Cmd.noTone pin]) := by
  have h0 : At (name ++ ':' :: (h.chars ++ notes)) (name.length + 1)
      (h.durChars ++ (h.octChars ++ (h.bpmChars ++ notes))) := by
    have := (at_append name (':' :: (h.chars ++ notes))).next
    simpa only [Header.chars, List.append_assoc] using this
  obtain ⟨e1, h1⟩ := durationField_header pf h _ h0 hwf.1 hun.1
  obtain ⟨e2, h2⟩ := octaveField_header h _ h1 hun.2.1
  obtain ⟨e3, _⟩ := bpmField_header pf h _ h2 hwf.2 hun.2.2
  have hne := bpmValue_ne_zero pf h hwf
  have hlen : name.length + 1 + h.durChars.length + h.octChars.length + h.bpmChars.length
      = name.length + 1 + h.chars.length := by
    simp only [Header.chars, List.length_append]
    omega
  simp only [begin, skipName_name name _ hname, bind, Except.bind, e1, e2, e3, hne, if_false,
    pure, Except.pure, hlen]

theorem toULong_add_wrapLong (a b : Int) : toULong (a + wrapLong b) = toULong (a + b) := by
  unfold toULong wrapLong
  congr 1
  omega

theorem toULong_of_lt (x : Int) (h0 : 0 ≤ x) (h1 : x < 4294967296) : toULong x = x.toNat := by
  unfold toULong
  rw [Int.emod_eq_of_lt h0 h1]

/-- What `nextnote` does, given what lines 182-224 tokenize. -/
theorem nextnote_of_token (pf : Platform) (s : State) (millis : Nat) (ev : NoteEvent) (i : Nat)
    (htok : nextnoteToken pf s = .ok (ev, i)) :
    nextnote pf s millis =
      .ok ({ s with buffer := i,
                    noteDelay := if ev.note = 0 then toULong ((millis : Int) + ev.duration)
                      else toULong ((millis : Int) + ev.duration + 1) },
           if ev.note = 0 then [Cmd.noTone s.pin]
           else [Cmd.noTone s.pin,
                 Cmd.tone s.pin (tableAt pf (((ev.scale : Int) - 4) * 12 + ev.note)) ev.duration],
           ev) := by
  unfold nextnote
  by_cases hn : ev.note = 0
  · simp [htok, bind, Except.bind, pure, Except.pure, hn]
  · simp [htok, bind, Except.bind, pure, Except.pure, hn, toULong_add_wrapLong, add_assoc]

/-- A due poll away from the end of the text runs `nextnote`. -/
theorem play_due (pf : Platform) (s : State) (m millis : Nat) (c : Char)
    (hplay : s.playing = true) (hdue : s.noteDelay ≤ m)
    (hc : peek s.text s.buffer = .ok c) (hne : c ≠ NUL) :
    play pf s m millis = (nextnote pf s millis).map (fun r => (r.1, r.2.1, some r.2.2)) := by
  unfold play
  simp only [hplay, Bool.not_true, Bool.false_eq_true, if_false, not_lt.mpr hdue, hc, bind,
    Except.bind, hne, pure, Except.pure]
  cases nextnote pf s millis <;> rfl

/-- A poll that is not due, or made while idle, does nothing. -/
theorem play_idle_or_early (pf : Platform) (s : State) (m millis : Nat)
    (h : s.playing = false ∨ m < s.noteDelay) : play pf s m millis = .ok (s, [], none) := by
  unfold play
  rcases h with h | h
  · simp [h, pure, Except.pure]
  · by_cases hp : s.playing = true
    · simp [hp, h, pure, Except.pure]
    · simp [hp, pure, Except.pure]

theorem nulLoop_of_head (r : List Char) (i : Nat) (h : r.headD NUL = NUL) : nulLoop r i = i := by
  cases r with
  | nil => rfl
  | cons c cs =>
    simp only [List.headD_cons] at h
    simp [nulLoop, h]

theorem nulLoop_at (text : List Char) :
    ∀ (r : List Char) (i : Nat), At text i r →
      peek text (nulLoop r i) = .ok NUL ∧ i ≤ nulLoop r i ∧ nulLoop r i ≤ text.length := by
  intro r
  induction r with
  | nil =>
    intro i h
    have := h.peek_eq
    exact ⟨by simpa [nulLoop] using this, le_refl _, h.le⟩
  | cons c cs ih =>
    intro i h
    by_cases hc : c = NUL
    · have := h.peek_eq
      simp only [List.headD_cons, hc] at this
      simp only [nulLoop, hc, if_true]
      exact ⟨this, le_refl _, h.le⟩
    · simp only [nulLoop, hc, if_false]
      obtain ⟨h1, h2, h3⟩ := ih (i + 1) h.next
      exact ⟨h1, by omega, h3⟩

theorem at_of_le (text : List Char) (i : Nat) (h : i ≤ text.length) : At text i (text.drop i) :=
  ⟨text.take i, (List.take_append_drop i text).symm, by simp [h]⟩

theorem peek_ok_le (text : List Char) (i : Nat) (c : Char) (h : peek text i = .ok c) :
    i ≤ text.length := by
  unfold peek at h
  by_contra hlt
  simp [hlt] at h

/-- What `stop` does while playing with the cursor inside the text. -/
theorem stop_playing (s : State) (hplay : s.playing = true) (hin : s.buffer ≤ s.text.length) :
    stop s = .ok ({ s with buffer := nulLoop (s.text.drop s.buffer) s.buffer, playing := false },
      [Cmd.noTone s.pin]) := by
  simp [stop, hplay, hin, pure, Except.pure]

theorem stop_idle (s : State) (hidle : s.playing = false) : stop s = .ok (s, []) := by
  simp [stop, hidle, pure, Except.pure]

theorem nulLoop_no_nul : ∀ (r : List Char) (i : Nat), NUL ∉ r → nulLoop r i = i + r.length := by
  intro r
  induction r with
  | nil => intro i _; rfl
  | cons c cs ih =>
    intro i h
    have hc : c ≠ NUL := fun e => h (by simp [e])
    have hcs : NUL ∉ cs := fun e => h (by simp [e])
    simp only [nulLoop, hc, if_false, ih (i + 1) hcs, List.length_cons]
    omega

theorem token_head_ne_nul (t : Token) (rest : List Char) (hwf : t.WellFormed)
    (hL : t.letter ≠ NUL) : (t.chars ++ rest).headD NUL ≠ NUL := by
  obtain ⟨ds, L, sharp, dot1, K, dot2, comma⟩ := t
  cases ds with
  | nil => simpa [Token.chars] using hL
  | cons d ds =>
    have hd : d.isDigit = true := hwf.1 d (by simp)
    simp only [Token.chars, List.cons_append, List.headD_cons]
    intro e
    rw [e] at hd
    exact absurd hd (by decide)

theorem digitLoop_le (bits : Nat) : ∀ (r : List Char) (i : Nat) (n : Int),
    i ≤ (digitLoop bits r i n).1 := by
  intro r
  induction r with
  | nil => intro i n; simp [digitLoop]
  | cons c cs ih =>
    intro i n
    unfold digitLoop
    split
    · exact le_trans (Nat.le_succ i) (ih _ _)
    · exact le_refl _

theorem readNumber_le (pf : Platform) (text : List Char) (i j : Nat) (n : Int)
    (h : readNumber pf text i = .ok (j, n)) : i ≤ j := by
  unfold readNumber at h
  split at h
  · have := digitLoop_le pf.intBits (text.drop i) i 0
    simp only [Except.ok.injEq] at h
    rw [h] at this
    exact this
  · cases h

theorem sharpStep_le (text : List Char) (n i n' j : Nat)
    (h : sharpStep text n i = .ok (n', j)) : i ≤ j := by
  unfold sharpStep at h
  cases hp : peek text i with
  | error e => simp [hp, bind, Except.bind] at h
  | ok c =>
    simp only [hp, bind, Except.bind, pure, Except.pure] at h
    split at h <;> simp only [Except.ok.injEq, Prod.mk.injEq] at h <;> omega

theorem dotStep_le (text : List Char) (d : Int) (i : Nat) (d' : Int) (j : Nat)
    (h : dotStep text d i = .ok (d', j)) : i ≤ j := by
  unfold dotStep at h
  cases hp : peek text i with
  | error e => simp [hp, bind, Except.bind] at h
  | ok c =>
    simp only [hp, bind, Except.bind, pure, Except.pure] at h
    split at h <;> simp only [Except.ok.injEq, Prod.mk.injEq] at h <;> omega

theorem octaveStep_le (text : List Char) (o i o' j : Nat)
    (h : octaveStep text o i = .ok (o', j)) : i ≤ j := by
  unfold octaveStep at h
  cases hp : peek text i with
  | error e => simp [hp, bind, Except.bind] at h
  | ok c =>
    simp only [hp, bind, Except.bind, pure, Except.pure] at h
    split at h <;> simp only [Except.ok.injEq, Prod.mk.injEq] at h <;> omega

theorem commaStep_le (text : List Char) (i j : Nat)
    (h : commaStep text i = .ok j) : i ≤ j := by
  unfold commaStep at h
  cases hp : peek text i with
  | error e => simp [hp, bind, Except.bind] at h
  | ok c =>
    simp only [hp, bind, Except.bind, pure, Except.pure] at h
    split at h <;> simp only [Except.ok.injEq] at h <;> omega

/-- Every note takes at least one character. -/
theorem nextnoteToken_progress (pf : Platform) (s : State) (ev : NoteEvent) (j : Nat)
    (h : nextnoteToken pf s = .ok (ev, j)) : s.buffer < j := by
  unfold nextnoteToken at h
  cases h1 : readNumber pf s.text s.buffer with
  | error e => simp [h1, bind, Except.bind] at h
  | ok r1 =>
    obtain ⟨i1, num⟩ := r1
    have l1 := readNumber_le pf _ _ _ _ h1
    simp only [h1, bind, Except.bind] at h
    cases hdur : baseDuration s num with
    | error e =>
      rw [hdur] at h
      simp at h
    | ok d0 =>
      rw [hdur] at h
      simp only at h
      cases h2 : peek s.text i1 with
      | error e => simp [h2] at h
      | ok c =>
        simp only [h2] at h
        cases h3 : sharpStep s.text (noteOf c) (i1 + 1) with
        | error e => simp [h3] at h
        | ok r3 =>
          obtain ⟨n3, i3⟩ := r3
          have l3 := sharpStep_le _ _ _ _ _ h3
          simp only [h3] at h
          cases h4 : dotStep s.text d0 i3 with
          | error e => simp [h4] at h
          | ok r4 =>
            obtain ⟨d4, i4⟩ := r4
            have l4 := dotStep_le _ _ _ _ _ h4
            simp only [h4] at h
            cases h5 : octaveStep s.text s.default_oct i4 with
            | error e => simp [h5] at h
            | ok r5 =>
              obtain ⟨o5, i5⟩ := r5
              have l5 := octaveStep_le _ _ _ _ _ h5
              simp only [h5] at h
              cases h6 : dotStep s.text d4 i5 with
              | error e => simp [h6] at h
              | ok r6 =>
                obtain ⟨d6, i6⟩ := r6
                have l6 := dotStep_le _ _ _ _ _ h6
                simp only [h6] at h
                cases h7 : commaStep s.text i6 with
                | error e => simp [h7] at h
                | ok i7 =>
                  have l7 := commaStep_le _ _ _ h7
                  simp only [h7, pure, Except.pure, Except.ok.injEq, Prod.mk.injEq] at h
                  omega

/-- The tokenizer reads the text, the cursor and the configuration only. -/
theorem nextnoteToken_congr (pf : Platform) (s1 s2 : State) (ht : s1.text = s2.text)
    (hb : s1.buffer = s2.buffer) (hw : s1.wholenote = s2.wholenote)
    (hd : s1.default_dur = s2.default_dur) (ho : s1.default_oct = s2.default_oct) :
    nextnoteToken pf s1 = nextnoteToken pf s2 := by
  simp only [nextnoteToken, baseDuration, ht, hb, hw, hd, ho]

theorem with_buffer_self (s : State) : { s with buffer := s.buffer } = s := rfl

theorem peek_error_of_lt (text : List Char) (i : Nat) (h : text.length < i) :
    peek text i = .error (.outOfBounds i) := by
  simp [peek, not_le.mpr h]

/-- More fuel than characters left does not change the tokenization. -/
theorem tokenizeFrom_fuel (pf : Platform) (s : State) :
    ∀ (f1 f2 i : Nat), s.text.length + 1 - i ≤ f1 → s.text.length + 1 - i ≤ f2 →
      tokenizeFrom pf s f1 i = tokenizeFrom pf s f2 i := by
  intro f1
  induction f1 with
  | zero =>
    intro f2 i h1 _
    have hi : s.text.length < i := by omega
    cases f2 with
    | zero => rfl
    | succ f2 => simp [tokenizeFrom, peek_error_of_lt _ _ hi]
  | succ f1 ih =>
    intro f2 i h1 h2
    cases f2 with
    | zero =>
      have hi : s.text.length < i := by omega
      simp [tokenizeFrom, peek_error_of_lt _ _ hi]
    | succ f2 =>
      unfold tokenizeFrom
      cases hp : peek s.text i with
      | error e => rfl
      | ok c =>
        simp only
        by_cases hc : c = NUL
        · simp [hc]
        · simp only [hc, if_false]
          cases ht : nextnoteToken pf { s with buffer := i } with
          | error e => rfl
          | ok r =>
            obtain ⟨ev, j⟩ := r
            have hlt : i < j := nextnoteToken_progress pf _ ev j ht
            simp only
            rw [ih f2 j (by omega) (by omega)]

/-- The tokenization reads the text and the configuration only. -/
theorem tokenizeFrom_congr (pf : Platform) (s1 s2 : State) (ht : s1.text = s2.text)
    (hw : s1.wholenote = s2.wholenote) (hd : s1.default_dur = s2.default_dur)
    (ho : s1.default_oct = s2.default_oct) :
    ∀ (f i : Nat), tokenizeFrom pf s1 f i = tokenizeFrom pf s2 f i := by
  intro f
  induction f with
  | zero => intro i; rfl
  | succ f ih =>
    intro i
    unfold tokenizeFrom
    rw [nextnoteToken_congr pf { s1 with buffer := i } { s2 with buffer := i } ht rfl hw hd ho, ht]
    cases peek s2.text i with
    | error e => rfl
    | ok c =>
      simp only
      split
      · rfl
      · cases nextnoteToken pf { s2 with buffer := i } with
        | error e => rfl
        | ok r => simp only [ih]

/-- A poll that tokenizes a note takes the head of the note section and leaves
the rest. -/
theorem noteSection_step (pf : Platform) (s : State) (c : Char) (ev : NoteEvent) (j : Nat)
    (d : Nat) (hc : peek s.text s.buffer = .ok c) (hne : c ≠ NUL)
    (htok : nextnoteToken pf s = .ok (ev, j)) :
    noteSection pf s = ev :: noteSection pf { s with buffer := j, noteDelay := d } := by
  have hlt := nextnoteToken_progress pf s ev j htok
  have hin := peek_ok_le _ _ _ hc
  unfold noteSection
  rw [show tokenizeFrom pf s (s.text.length + 1) s.buffer
      = tokenizeFrom pf s ((s.text.length) + 1) s.buffer from rfl]
  conv_lhs => unfold tokenizeFrom
  simp only [hc, hne, if_false, with_buffer_self, htok]
  congr 1
  rw [tokenizeFrom_fuel pf s s.text.length (s.text.length + 1) j (by omega) (by omega)]
  exact tokenizeFrom_congr pf s { s with buffer := j, noteDelay := d } rfl rfl rfl rfl _ _

theorem polls_idle (pf : Platform) (s : State) (h : s.playing = false) :
    ∀ ps, polls pf s ps = (s, [], none) := by
  intro ps
  induction ps with
  | nil => rfl
  | cons p ps ih =>
    simp only [polls, play_idle_or_early pf s p.1 p.2 (Or.inl h), ih, Option.toList,
      List.nil_append]

theorem polls_early (pf : Platform) (s : State) (ps : List (Nat × Nat))
    (h : ∀ p ∈ ps, p.1 < s.noteDelay) : polls pf s ps = (s, [], none) := by
  induction ps with
  | nil => rfl
  | cons p ps ih =>
    have hp := h p (by simp)
    simp only [polls, play_idle_or_early pf s p.1 p.2 (Or.inr hp),
      ih (fun q hq => h q (by simp [hq])), Option.toList, List.nil_append]

/-- The three outcomes of a poll that returns. -/
theorem play_cases (pf : Platform) (s : State) (m now : Nat) (s' : State) (cmds : List Cmd)
    (oev : Option NoteEvent) (h : play pf s m now = .ok (s', cmds, oev)) :
    (s' = s ∧ oev = none) ∨ (s'.playing = false ∧ oev = none) ∨
    (∃ c ev j, peek s.text s.buffer = .ok c ∧ c ≠ NUL ∧ nextnoteToken pf s = .ok (ev, j) ∧
      oev = some ev ∧
      s' = { s with buffer := j,
                    noteDelay := if ev.note = 0 then toULong ((now : Int) + ev.duration)
                      else toULong ((now : Int) + ev.duration + 1) }) := by
  by_cases hplay : s.playing = true
  · by_cases hdue : s.noteDelay ≤ m
    · cases hc : peek s.text s.buffer with
      | error e => simp [play, hplay, not_lt.mpr hdue, hc, bind, Except.bind] at h
      | ok c =>
        by_cases hne : c = NUL
        · right; left
          have hin := peek_ok_le _ _ _ hc
          simp only [play, hplay, Bool.not_true, Bool.false_eq_true, if_false, not_lt.mpr hdue,
            hc, bind, Except.bind, hne, if_true, stop_playing s hplay hin, pure, Except.pure,
            Except.ok.injEq, Prod.mk.injEq] at h
          exact ⟨by rw [← h.1], h.2.2.symm⟩
        · right; right
          rw [play_due pf s m now c hplay hdue hc hne] at h
          cases ht : nextnoteToken pf s with
          | error e =>
            have : nextnote pf s now = .error e := by
              simp [nextnote, ht, bind, Except.bind]
            simp [this, Except.map] at h
          | ok r =>
            obtain ⟨ev, j⟩ := r
            rw [nextnote_of_token pf s now ev j ht] at h
            simp only [Except.map, Except.ok.injEq, Prod.mk.injEq] at h
            exact ⟨c, ev, j, rfl, hne, rfl, h.2.2.symm, h.1.symm⟩
    · left
      rw [play_idle_or_early pf s m now (Or.inr (not_le.mp hdue))] at h
      simp only [Except.ok.injEq, Prod.mk.injEq] at h
      exact ⟨h.1.symm, h.2.2.symm⟩
  · left
    rw [play_idle_or_early pf s m now (Or.inl (by simpa using hplay))] at h
    simp only [Except.ok.injEq, Prod.mk.injEq] at h
    exact ⟨h.1.symm, h.2.2.symm⟩

/-- The notes a run of polls tokenizes are an initial segment of the note
section. -/
theorem polls_initial_segment (pf : Platform) :
    ∀ (ps : List (Nat × Nat)) (s : State), (polls pf s ps).2.1 <+: noteSection pf s := by
  intro ps
  induction ps with
  | nil => intro s; exact List.nil_prefix
  | cons p ps ih =>
    intro s
    unfold polls
    cases hplay : play pf s p.1 p.2 with
    | error e => exact List.nil_prefix
    | ok r =>
      obtain ⟨s', cmds, oev⟩ := r
      simp only
      rcases play_cases pf s p.1 p.2 s' cmds oev hplay with ⟨hs, ho⟩ | ⟨hs, ho⟩ | ⟨c, ev, j, hc, hne, ht, ho, hs⟩
      · subst hs ho
        simpa using ih s'
      · subst ho
        simp only [polls_idle pf s' hs ps, Option.toList, List.nil_append]
        exact List.nil_prefix
      · subst ho
        rw [noteSection_step pf s c ev j _ hc hne ht, ← hs]
        simp only [Option.toList, List.singleton_append]
        exact (List.prefix_cons_inj ev).mpr (ih s')

theorem play_eq_duePoll (pf : Platform) (s : State) (m millis : Nat)
    (hplay : s.playing = true) (hdue : s.noteDelay ≤ m) :
    play pf s m millis = duePoll pf s millis := by
  unfold play duePoll
  simp only [hplay, Bool.not_true, Bool.false_eq_true, if_false, not_lt.mpr hdue, bind,
    Except.bind, pure, Except.pure]
  cases peek s.text s.buffer with
  | error e => rfl
  | ok c =>
    simp only
    split
    · cases stop s <;> rfl
    · cases nextnote pf s millis <;> rfl

/-- The result of `begin` does not depend on the state it is called in. -/
theorem begin_indep (pf : Platform) (s1 s2 : State) (pin : Nat) (text : List Char) :
    begin pf s1 pin text = begin pf s2 pin text := by
  unfold begin
  rfl

theorem commaStep_in_text (text : List Char) (i j : Nat)
    (h : commaStep text i = .ok j) : j ≤ text.length := by
  unfold commaStep at h
  cases hp : peek text i with
  | error e => simp [hp, bind, Except.bind] at h
  | ok c =>
    have hi := peek_ok_le _ _ _ hp
    simp only [hp, bind, Except.bind, pure, Except.pure] at h
    split at h
    · rename_i hc
      simp only [Except.ok.injEq] at h
      have hne : i ≠ text.length := by
        intro e
        rw [e] at hp
        simp [peek] at hp
        rw [hc] at hp
        exact absurd hp (by decide)
      omega
    · simp only [Except.ok.injEq] at h
      omega

/-- A note that is tokenized without a fault ends inside the text. -/
theorem nextnoteToken_in_text (pf : Platform) (s : State) (ev : NoteEvent) (j : Nat)
    (h : nextnoteToken pf s = .ok (ev, j)) : j ≤ s.text.length := by
  unfold nextnoteToken at h
  cases h1 : readNumber pf s.text s.buffer with
  | error e => simp [h1, bind, Except.bind] at h
  | ok r1 =>
    obtain ⟨i1, num⟩ := r1
    simp only [h1, bind, Except.bind] at h
    cases hdur : baseDuration s num with
    | error e =>
      rw [hdur] at h
      simp at h
    | ok d0 =>
      rw [hdur] at h
      simp only at h
      cases h2 : peek s.text i1 with
      | error e => simp [h2] at h
      | ok c =>
        simp only [h2] at h
        cases h3 : sharpStep s.text (noteOf c) (i1 + 1) with
        | error e => simp [h3] at h
        | ok r3 =>
          simp only [h3] at h
          cases h4 : dotStep s.text d0 r3.2 with
          | error e => simp [h4] at h
          | ok r4 =>
            simp only [h4] at h
            cases h5 : octaveStep s.text s.default_oct r4.2 with
            | error e => simp [h5] at h
            | ok r5 =>
              simp only [h5] at h
              cases h6 : dotStep s.text r4.1 r5.2 with
              | error e => simp [h6] at h
              | ok r6 =>
                simp only [h6] at h
                cases h7 : commaStep s.text r6.2 with
                | error e => simp [h7] at h
                | ok i7 =>
                  have l7 := commaStep_in_text _ _ _ h7
                  simp only [h7, pure, Except.pure, Except.ok.injEq, Prod.mk.injEq] at h
                  omega

/-- Every outcome of a poll that returns, with the state it leaves. -/
theorem play_result (pf : Platform) (s : State) (m now : Nat) (s' : State) (cmds : List Cmd)
    (oev : Option NoteEvent) (h : play pf s m now = .ok (s', cmds, oev)) :
    (s' = s ∧ cmds = [] ∧ oev = none) ∨
    (s.buffer ≤ s.text.length ∧ oev = none ∧ cmds = [Cmd.noTone s.pin] ∧
      s' = { s with buffer := nulLoop (s.text.drop s.buffer) s.buffer, playing := false }) ∨
    (∃ c ev j, peek s.text s.buffer = .ok c ∧ c ≠ NUL ∧ nextnoteToken pf s = .ok (ev, j) ∧
      oev = some ev ∧
      s' = { s with buffer := j,
                    noteDelay := if ev.note = 0 then toULong ((now : Int) + ev.duration)
                      else toULong ((now : Int) + ev.duration + 1) }) := by
  by_cases hplay : s.playing = true
  · by_cases hdue : s.noteDelay ≤ m
    · cases hc : peek s.text s.buffer with
      | error e => simp [play, hplay, not_lt.mpr hdue, hc, bind, Except.bind] at h
      | ok c =>
        by_cases hne : c = NUL
        · right; left
          have hin := peek_ok_le _ _ _ hc
          simp only [play, hplay, Bool.not_true, Bool.false_eq_true, if_false, not_lt.mpr hdue,
            hc, bind, Except.bind, hne, if_true, stop_playing s hplay hin, pure, Except.pure,
            Except.ok.injEq, Prod.mk.injEq] at h
          exact ⟨hin, h.2.2.symm, h.2.1.symm, h.1.symm⟩
        · right; right
          rw [play_due pf s m now c hplay hdue hc hne] at h
          cases ht : nextnoteToken pf s with
          | error e =>
            have : nextnote pf s now = .error e := by
              simp [nextnote, ht, bind, Except.bind]
            simp [this, Except.map] at h
          | ok r =>
            obtain ⟨ev, j⟩ := r
            rw [nextnote_of_token pf s now ev j ht] at h
            simp only [Except.map, Except.ok.injEq, Prod.mk.injEq] at h
            exact ⟨c, ev, j, rfl, hne, rfl, h.2.2.symm, h.1.symm⟩
    · left
      rw [play_idle_or_early pf s m now (Or.inr (not_le.mp hdue))] at h
      simp only [Except.ok.injEq, Prod.mk.injEq] at h
      exact ⟨h.1.symm, h.2.1.symm, h.2.2.symm⟩
  · left
    rw [play_idle_or_early pf s m now (Or.inl (by simpa using hplay))] at h
    simp only [Except.ok.injEq, Prod.mk.injEq] at h
    exact ⟨h.1.symm, h.2.1.symm, h.2.2.symm⟩

/-- A poll that returns does not move the cursor backward, moves it forward when
it tokenizes a note, keeps it inside the text and keeps the text. -/
theorem play_cursor (pf : Platform) (s : State) (m now : Nat) (s' : State) (cmds : List Cmd)
    (oev : Option NoteEvent) (h : play pf s m now = .ok (s', cmds, oev)) :
    s'.text = s.text ∧ s.buffer ≤ s'.buffer ∧ (oev ≠ none → s.buffer < s'.buffer) ∧
      (s.buffer ≤ s.text.length → s'.buffer ≤ s'.text.length) := by
  rcases play_result pf s m now s' cmds oev h with
    ⟨hs, _, ho⟩ | ⟨hin, ho, _, hs⟩ | ⟨c, ev, j, _, _, ht, ho, hs⟩
  · subst hs
    exact ⟨rfl, le_refl _, fun hne => absurd ho hne, fun h => h⟩
  · obtain ⟨_, h2, h3⟩ := nulLoop_at s.text _ _ (at_of_le _ _ hin)
    subst hs
    exact ⟨rfl, h2, fun hne => absurd ho hne, fun _ => h3⟩
  · have hlt := nextnoteToken_progress pf s ev j ht
    have hle := nextnoteToken_in_text pf s ev j ht
    subst hs
    exact ⟨rfl, le_of_lt hlt, fun _ => hlt, fun _ => hle⟩

/-- A `stop` that returns does not move the cursor backward, keeps it inside the
text and keeps the text. -/
theorem stop_cursor (s s' : State) (cmds : List Cmd) (h : stop s = .ok (s', cmds)) :
    s'.text = s.text ∧ s.buffer ≤ s'.buffer ∧
      (s.buffer ≤ s.text.length → s'.buffer ≤ s'.text.length) := by
  by_cases hp : s.playing = true
  · by_cases hb : s.buffer ≤ s.text.length
    · rw [stop_playing s hp hb] at h
      simp only [Except.ok.injEq, Prod.mk.injEq] at h
      obtain ⟨_, h2, h3⟩ := nulLoop_at s.text _ _ (at_of_le _ _ hb)
      rw [← h.1]
      exact ⟨rfl, h2, fun _ => h3⟩
    · simp [stop, hp, hb, throw, throwThe, MonadExceptOf.throw] at h
  · rw [stop_idle s (by simpa using hp)] at h
    simp only [Except.ok.injEq, Prod.mk.injEq] at h
    rw [← h.1]
    exact ⟨rfl, le_refl _, fun h => h⟩

theorem tokenizeFrom_length (pf : Platform) (s : State) :
    ∀ (fuel i : Nat), i ≤ s.text.length →
      (tokenizeFrom pf s fuel i).length ≤ s.text.length - i := by
  intro fuel
  induction fuel with
  | zero => intro i _; simp [tokenizeFrom]
  | succ fuel ih =>
    intro i hi
    unfold tokenizeFrom
    cases hp : peek s.text i with
    | error e => simp
    | ok c =>
      simp only
      split
      · simp
      · cases ht : nextnoteToken pf { s with buffer := i } with
        | error e => simp
        | ok r =>
          obtain ⟨ev, j⟩ := r
          have hlt : i < j := nextnoteToken_progress pf _ ev j ht
          have hle : j ≤ s.text.length :=
            nextnoteToken_in_text pf { s with buffer := i } ev j ht
          have := ih j hle
          simp only [List.length_cons]
          omega

/-- A run of polls tokenizes at most as many notes as characters are left. -/
theorem polls_length (pf : Platform) (s : State) (ps : List (Nat × Nat))
    (h : s.buffer ≤ s.text.length) :
    (polls pf s ps).2.1.length ≤ s.text.length - s.buffer :=
  le_trans (polls_initial_segment pf ps s).length_le
    (tokenizeFrom_length pf s (s.text.length + 1) s.buffer h)

/-- A sequence of calls that returns keeps the text, does not move the cursor
backward and keeps it inside the text. -/
theorem calls_cursor (pf : Platform) :
    ∀ (cs : List Call) (s s' : State), calls pf s cs = .ok s' →
      s'.text = s.text ∧ s.buffer ≤ s'.buffer ∧
        (s.buffer ≤ s.text.length → s'.buffer ≤ s'.text.length) := by
  intro cs
  induction cs with
  | nil =>
    intro s s' h
    simp only [calls, Except.ok.injEq] at h
    subst h
    exact ⟨rfl, le_refl _, fun h => h⟩
  | cons c cs ih =>
    intro s s' h
    unfold calls at h
    cases hc : call pf s c with
    | error e => simp [hc] at h
    | ok s1 =>
      simp only [hc] at h
      obtain ⟨h1, h2, h3⟩ := ih s1 s' h
      have step : s1.text = s.text ∧ s.buffer ≤ s1.buffer ∧
          (s.buffer ≤ s.text.length → s1.buffer ≤ s1.text.length) := by
        cases c with
        | poll m now =>
          simp only [call] at hc
          cases hp : play pf s m now with
          | error e => simp [hp, Except.map] at hc
          | ok r =>
            obtain ⟨s2, cmds, oev⟩ := r
            simp only [hp, Except.map, Except.ok.injEq] at hc
            subst hc
            obtain ⟨a, b, _, d⟩ := play_cursor pf s m now s2 cmds oev hp
            exact ⟨a, b, d⟩
        | stop =>
          simp only [call] at hc
          cases hp : stop s with
          | error e => simp [hp, Except.map] at hc
          | ok r =>
            obtain ⟨s2, cmds⟩ := r
            simp only [hp, Except.map, Except.ok.injEq] at hc
            subst hc
            exact stop_cursor s s2 cmds hp
      obtain ⟨g1, g2, g3⟩ := step
      refine ⟨h1.trans g1, le_trans g2 h2, fun hin => h3 (g3 hin)⟩

theorem calls_idle (pf : Platform) (s : State) (h : s.playing = false) :
    ∀ cs, calls pf s cs = .ok s := by
  intro cs
  induction cs with
  | nil => rfl
  | cons c cs ih =>
    cases c with
    | poll m now =>
      simp only [calls, call, play_idle_or_early pf s m now (Or.inl h), Except.map, ih]
    | stop =>
      simp only [calls, call, stop_idle s h, Except.map, ih]

/-- A due poll with the cursor on the terminating NUL. -/
theorem play_end (pf : Platform) (s : State) (m now : Nat)
    (hplay : s.playing = true) (hdue : s.noteDelay ≤ m)
    (hend : peek s.text s.buffer = .ok NUL) :
    play pf s m now = .ok ({ s with playing := false }, [Cmd.noTone s.pin], none) := by
  have hin := peek_ok_le _ _ _ hend
  have hat := at_of_le _ _ hin
  have hhead : (s.text.drop s.buffer).headD NUL = NUL := by
    have := hat.peek_eq
    rw [hend] at this
    exact (Except.ok.inj this).symm
  unfold play
  simp only [hplay, Bool.not_true, Bool.false_eq_true, if_false, not_lt.mpr hdue, hend, bind,
    Except.bind, if_true, stop_playing s hplay hin, nulLoop_of_head _ _ hhead, pure,
    Except.pure]

/-- A due poll with the cursor in front of a note token. -/
theorem play_token (pf : Platform) (s : State) (t : Token) (rest : List Char) (m now : Nat)
    (hwf : t.WellFormed) (hL : t.letter ≠ NUL)
    (hat : At s.text s.buffer (t.chars ++ rest)) (hend : t.EndsBefore (rest.headD NUL))
    (hD0 : numOf pf t.digits = 0 → s.default_dur ≠ 0)
    (hplay : s.playing = true) (hdue : s.noteDelay ≤ m) :
    play pf s m now =
      .ok ({ s with buffer := s.buffer + t.chars.length,
                    noteDelay :=
                      if (t.event pf s).note = 0 then
                        toULong ((now : Int) + (t.event pf s).duration)
                      else toULong ((now : Int) + (t.event pf s).duration + 1) },
           if (t.event pf s).note = 0 then [Cmd.noTone s.pin]
           else [Cmd.noTone s.pin,
                 Cmd.tone s.pin
                   (tableAt pf ((((t.event pf s).scale : Int) - 4) * 12 + (t.event pf s).note))
                   (t.event pf s).duration],
           some (t.event pf s)) := by
  have htok := nextnoteToken_token pf s rest t hwf hat hD0 hend
  rw [play_due pf s m now _ hplay hdue hat.peek_eq (token_head_ne_nul t rest hwf hL),
    nextnote_of_token pf s now _ _ htok]
  rfl

theorem endsBefore_nul (t : Token) : t.EndsBefore NUL := by
  intro _
  exact ⟨by decide, by decide, by decide, by decide⟩

theorem endsBefore_section (t : Token) (ts : List Token)
    (h : ts ≠ [] → t.comma = true) : t.EndsBefore ((sectionChars ts).headD NUL) := by
  cases ts with
  | nil => exact endsBefore_nul t
  | cons t' ts' =>
    intro hc
    rw [h (by simp)] at hc
    cases hc

/-- On a well-formed note section every sequence of calls returns. -/
theorem calls_section (pf : Platform) :
    ∀ (cs : List Call) (s : State) (ts : List Token), SectionWellFormed ts →
      At s.text s.buffer (sectionChars ts) → s.default_dur ≠ 0 →
      ∃ s', calls pf s cs = .ok s' := by
  intro cs
  induction cs with
  | nil => intro s ts _ _ _; exact ⟨s, rfl⟩
  | cons c cs ih =>
    intro s ts hts hat hD
    by_cases hplay : s.playing = true
    · cases c with
      | stop =>
        simp only [calls, call, stop_playing s hplay hat.le, Except.map]
        exact ⟨_, calls_idle pf _ rfl cs⟩
      | poll m now =>
        by_cases hdue : s.noteDelay ≤ m
        · cases ts with
          | nil =>
            have hp : peek s.text s.buffer = .ok NUL := hat.peek_eq
            simp only [calls, call, play_end pf s m now hplay hdue hp, Except.map]
            exact ⟨_, calls_idle pf _ rfl cs⟩
          | cons t ts' =>
            obtain ⟨hwf, hL, hcomma, hts'⟩ := hts
            have hat' : At s.text s.buffer (t.chars ++ sectionChars ts') := hat
            simp only [calls, call,
              play_token pf s t (sectionChars ts') m now hwf hL hat'
                (endsBefore_section t ts' hcomma) (fun _ => hD) hplay hdue, Except.map]
            exact ih _ ts' hts' hat'.skip hD
        · simp only [calls, call, play_idle_or_early pf s m now (Or.inr (not_le.mp hdue)),
            Except.map]
          exact ih s ts hts hat hD
    · exact ⟨s, calls_idle pf s (by simpa using hplay) (c :: cs)⟩

theorem specPitchClass_le (c : Char) : specPitchClass c ≤ 12 := by
  unfold specPitchClass
  split <;> omega

theorem notes_length (pf : Platform) : (notes pf).length = 49 := rfl

theorem tableAt_in_range (pf : Platform) (idx : Int) (h0 : 0 ≤ idx) (h1 : idx ≤ 48) :
    ∃ f, tableAt pf idx = some f ∧ (notes pf)[idx.toNat]? = some f := by
  have hlt : idx.toNat < (notes pf).length := by
    rw [notes_length]
    omega
  refine ⟨(notes pf)[idx.toNat], ?_, List.getElem?_eq_getElem hlt⟩
  unfold tableAt
  rw [if_pos h0]
  exact List.getElem?_eq_getElem hlt

theorem tableAt_out_of_range (pf : Platform) (idx : Int) (h : idx < 0 ∨ 48 < idx) :
    tableAt pf idx = none := by
  unfold tableAt
  split
  · rename_i h0
    apply List.getElem?_eq_none
    rw [notes_length]
    omega
  · rfl

theorem tdiv_pos_of_le (a b : Int) (hb : 0 < b) (hab : b ≤ a) : 0 < Int.tdiv a b := by
  rw [Int.tdiv_eq_ediv (by omega) (by omega)]
  have : 1 ≤ a / b := (Int.le_ediv_iff_mul_le hb).mpr (by omega)
  omega

theorem tdiv_le_self (a b : Int) (ha : 0 ≤ a) (hb : 0 < b) : Int.tdiv a b ≤ a := by
  rw [Int.tdiv_eq_ediv ha (by omega)]
  exact Int.ediv_le_self b ha

theorem dotted_bounds (x : Int) (h0 : 0 < x) (h1 : x < 2 ^ 29) :
    x ≤ dotted x ∧ 2 * dotted x ≤ 3 * x := by
  rw [dotted_eq x (by omega) (by norm_num at h1 ⊢; omega)]
  omega

/-! ## The tokens of the specification's examples, evaluated -/

/-- The token `c` under the defaults: pitch class 1, octave 6, a quarter of the
whole note. -/
theorem token_c_default :
    nextnoteToken avr (playingAt "x:c".toList 2) =
      .ok ({ note := 1, scale := 6, duration := 3808 / 4 }, 3) := by rfl

/-- The token `8c.`: one dot and no octave digit. -/
theorem token_8c_dot :
    nextnoteToken avr (playingAt "x:8c.".toList 2) =
      .ok ({ note := 1, scale := 6, duration := 3808 / 8 * 3 / 2 }, 5) := by rfl

/-- The token `4c5.`: the dot after the octave digit. -/
theorem token_4c5_dot :
    nextnoteToken avr (playingAt "x:4c5.".toList 2) =
      .ok ({ note := 1, scale := 5, duration := 3808 / 4 * 3 / 2 }, 6) := by rfl

/-! ## The claims -/

/-- C1 (amended). For a state with whole note `W`, default denominator `D0 > 0`
and default octave `O0`, and a cursor in front of an undotted token
`[digits N] letter L ['#'] [octave digit K] [',']` whose digits, if any, have a
value that fits `int`, `nextnote` tokenizes pitch class `table(L)` plus 1 for a
`#`, octave `K` if present and `O0` otherwise, duration `W / N` (C division) if
`N > 0` and `W / D0` otherwise, and leaves the cursor just past the token. -/
theorem nextnote_undotted (pf : Platform) (s : State) (t : Token) (rest : List Char)
    (millis : Nat) (hbits : 0 < pf.intBits) (hwf : t.WellFormed)
    (hd1 : t.dot1 = false) (hd2 : t.dot2 = false)
    (hat : At s.text s.buffer (t.chars ++ rest)) (hend : t.EndsBefore (rest.headD NUL))
    (hD0 : 0 < s.default_dur) (hfit : digitsValue t.digits < 2 ^ (pf.intBits - 1)) :
    (nextnote pf s millis).map (fun r => (r.2.2, r.1.buffer)) =
      .ok ({ note := specPitchClass t.letter + (if t.sharp then 1 else 0)
             scale := match t.octave with
               | some k => k.toNat - 48
               | none => s.default_oct
             duration :=
               if 0 < digitsValue t.digits then Int.tdiv s.wholenote (digitsValue t.digits)
               else Int.tdiv s.wholenote s.default_dur },
           s.buffer + t.chars.length) := by
  rw [nextnote_event,
    nextnoteToken_token pf s rest t hwf hat (fun _ => Nat.pos_iff_ne_zero.mp hD0) hend]
  simp only [Token.event, Token.base, hd1, hd2, Bool.false_eq_true, if_false,
    numOf_of_fits pf hbits t.digits hwf.1 hfit, ne_eq, Nat.cast_eq_zero, ← Nat.pos_iff_ne_zero]
  cases t.octave <;> rfl

/-- C1, witness: the token `4c#6,` under the defaults, on a 16-bit target. -/
theorem nextnote_undotted_witness :
    (nextnote avr (playingAt "x:4c#6,d".toList 2) 0).map (fun r => (r.2.2, r.1.buffer)) =
      .ok ({ note := 2, scale := 6, duration := 952 }, 7) :=
  nextnote_undotted avr (playingAt "x:4c#6,d".toList 2)
    ⟨['4'], 'c', true, false, some '6', false, true⟩ ['d'] 0 (by decide)
    ⟨by decide, by decide, by decide, by decide⟩ rfl rfl ⟨['x', ':'], rfl, rfl⟩
    (by simp [Token.EndsBefore]) (by decide) (by decide)

/-- C1, counterexample: the duration digits `4294967295` exceed `int` on both
targets and `num` wraps to -1, so the token `4294967295c` gets the duration
`3808 / -1 = -3808`: neither `W / N = 3808 / 4294967295 = 0` nor the default
`W / D0 = 3808 / 4 = 952`. -/
theorem nextnote_undotted_counterexample :
    begin avr init 8 "x:4294967295c".toList
        = .ok (playingAt "x:4294967295c".toList 2, [Cmd.noTone 8]) ∧
      begin esp32 init 8 "x:4294967295c".toList
        = .ok (playingAt "x:4294967295c".toList 2, [Cmd.noTone 8]) ∧
      (nextnote avr (playingAt "x:4294967295c".toList 2) 0).map (fun r => r.2.2.duration)
        = .ok (-3808) ∧
      (nextnote esp32 (playingAt "x:4294967295c".toList 2) 0).map (fun r => r.2.2.duration)
        = .ok (-3808) ∧
      0 < digitsValue "4294967295".toList ∧
      Int.tdiv (playingAt "x:4294967295c".toList 2).wholenote
        (digitsValue "4294967295".toList) = 0 ∧
      Int.tdiv (playingAt "x:4294967295c".toList 2).wholenote
        (playingAt "x:4294967295c".toList 2).default_dur = 952 := by
  refine ⟨by rfl, by rfl, by rfl, by rfl, by decide, by rfl, by rfl⟩

/-- C2. With base duration `b = W / denominator`, `0 ≤ b` (and `b` below `2 ^ 29`,
so that `long` does not overflow; `begin` derives whole notes of at most 240000),
a token with one dot, before or after the octave digit, gets duration
`(b * 3) / 2`, and a token with both dots gets `d1 + d1 / 2` with
`d1 = b + b / 2`. Pitch class and octave are those of the token without dots. -/
theorem nextnote_dotted (pf : Platform) (s : State) (t : Token) (rest : List Char)
    (millis : Nat) (hwf : t.WellFormed)
    (hat : At s.text s.buffer (t.chars ++ rest)) (hend : t.EndsBefore (rest.headD NUL))
    (hD0 : 0 < s.default_dur) (hb0 : 0 ≤ t.base pf s) (hb1 : t.base pf s < 2 ^ 29) :
    (nextnote pf s millis).map (fun r => (r.2.2, r.1.buffer)) =
      .ok ({ note := specPitchClass t.letter + (if t.sharp then 1 else 0)
             scale := match t.octave with
               | some k => k.toNat - 48
               | none => s.default_oct
             duration := match t.dot1, t.dot2 with
               | false, false => t.base pf s
               | true, false => t.base pf s * 3 / 2
               | false, true => t.base pf s * 3 / 2
               | true, true =>
                 (t.base pf s + t.base pf s / 2) + (t.base pf s + t.base pf s / 2) / 2 },
           s.buffer + t.chars.length) := by
  rw [nextnote_event,
    nextnoteToken_token pf s rest t hwf hat (fun _ => Nat.pos_iff_ne_zero.mp hD0) hend]
  have h29 : (2 : Int) ^ 29 = 536870912 := by norm_num
  have h30 : (2 : Int) ^ 30 = 1073741824 := by norm_num
  have e1 : dotted (t.base pf s) = t.base pf s + t.base pf s / 2 :=
    dotted_eq _ hb0 (by omega)
  have e2 : dotted (t.base pf s + t.base pf s / 2)
      = (t.base pf s + t.base pf s / 2) + (t.base pf s + t.base pf s / 2) / 2 :=
    dotted_eq _ (by omega) (by omega)
  have e3 : t.base pf s + t.base pf s / 2 = t.base pf s * 3 / 2 := by omega
  simp only [Token.event]
  cases t.octave <;> cases t.dot1 <;> cases t.dot2 <;>
    simp only [e1, e2, if_true, if_false, Bool.false_eq_true, Option.elim] <;>
    rw [e3]

/-- C2, witness: the token `c.5.` under the defaults has base duration 952 and,
with both dots, duration `1428 + 714 = 2142`. -/
theorem nextnote_dotted_witness :
    (nextnote avr (playingAt "x:c.5.".toList 2) 0).map (fun r => (r.2.2, r.1.buffer)) =
      .ok ({ note := 1, scale := 5, duration := 2142 }, 6) :=
  nextnote_dotted avr (playingAt "x:c.5.".toList 2)
    ⟨[], 'c', false, true, some '5', true, false⟩ [] 0
    ⟨by decide, by decide, by decide, by decide⟩ ⟨['x', ':'], rfl, rfl⟩
    (by simp [Token.EndsBefore, NUL]) (by decide) (by decide) (by decide)

/-- C3. On a song `name:d=D,o=O,b=B:notes` with no `:` in the name, `D` and `B`
digit strings with `D ≤ 255` and `0 < B ≤ 32767`, `begin` stores the duration
denominator `D` if `D > 0` and 4 if `D = 0`, the octave `O` if `3 ≤ O ≤ 7` and 6
otherwise, and `B` beats per minute; the cursor is left after the header's `:`. -/
theorem begin_full_header (pf : Platform) (s : State) (pin : Nat)
    (name D B notes : List Char) (O : Char) (hbits : 16 ≤ pf.intBits) (hname : ':' ∉ name)
    (hD : ∀ c ∈ D, c.isDigit = true) (hB : ∀ c ∈ B, c.isDigit = true)
    (hDfit : digitsValue D ≤ 255) (hB0 : 0 < digitsValue B) (hBfit : digitsValue B ≤ 32767) :
    begin pf s pin (name ++ ':' :: 'd' :: '=' ::
        (D ++ ',' :: 'o' :: '=' :: O :: ',' :: 'b' :: '=' :: (B ++ ':' :: notes))) =
      .ok ({ text := name ++ ':' :: 'd' :: '=' ::
               (D ++ ',' :: 'o' :: '=' :: O :: ',' :: 'b' :: '=' :: (B ++ ':' :: notes)),
             buffer := name.length + D.length + B.length + 11,
             bufferIndex := 0,
             default_dur := if 0 < digitsValue D then digitsValue D else 4,
             default_oct := if 3 ≤ O.toNat - 48 ∧ O.toNat - 48 ≤ 7 then O.toNat - 48 else 6,
             bpm := digitsValue B,
             wholenote := Int.tdiv 60000 (digitsValue B) * 4,
             pin := pin,
             noteDelay := 0,
             playing := true },
           [Cmd.noTone pin]) := by
  have hpow : 2 ^ 15 ≤ 2 ^ (pf.intBits - 1) :=
    Nat.pow_le_pow_right (by norm_num) (by omega)
  have h15 : (2 : Nat) ^ 15 = 32768 := by norm_num
  have hnD := numOf_of_fits pf (by omega) D hD (by omega)
  have hnB := numOf_of_fits pf (by omega) B hB (by omega)
  have hb := begin_header pf s pin name notes ⟨some D, some O, some B⟩ hname
    ⟨(fun D' hD' => by
        cases hD'
        exact hD),
     (fun B' hB' => by
        cases hB'
        refine ⟨hB, ?_⟩
        rw [hnB]
        exact_mod_cast (Nat.pos_iff_ne_zero.mp hB0))⟩
    ⟨(fun h => by cases h), (fun h => by cases h), (fun h => by cases h)⟩
  have hmod : toByte (digitsValue D : Int) = digitsValue D := by
    rw [toByte_natCast]
    exact Nat.mod_eq_of_lt (by omega)
  have hlen : name.length + 1 + (Header.chars ⟨some D, some O, some B⟩).length
      = name.length + D.length + B.length + 11 := by
    simp only [Header.chars, Header.durChars, Header.octChars, Header.bpmChars,
      List.length_cons, List.length_append, List.length_nil]
    omega
  rw [hlen] at hb
  simpa only [Header.chars, Header.durChars, Header.octChars, Header.bpmChars,
    Header.durValue, Header.octValue, Header.bpmValue, List.cons_append, List.append_assoc,
    List.nil_append, hnD, hnB, hmod, Nat.cast_pos] using hb

/-- C3, witness: the header `d=8,o=5,b=120:` gives duration 8, octave 5, 120
beats per minute and a whole note of 2000 ms. -/
theorem begin_full_header_witness :
    begin avr init 8 "x:d=8,o=5,b=120:c".toList =
      .ok ({ text := "x:d=8,o=5,b=120:c".toList, buffer := 16, bufferIndex := 0,
             default_dur := 8, default_oct := 5, bpm := 120, wholenote := 2000, pin := 8,
             noteDelay := 0, playing := true },
           [Cmd.noTone 8]) :=
  begin_full_header avr init 8 ['x'] ['8'] ['1', '2', '0'] ['c'] '5' (by decide) (by decide)
    (by decide) (by decide) (by decide) (by decide) (by decide)

/-- C4 (amended). On a song `name:header notes` (the numbers of the fields that
are present are digit strings, and a `b=` field is not zero), a field that is
absent keeps its built-in default (duration 4, octave 6, 63 beats per minute)
whatever the state before the call, provided the character at which `begin`
tests for that field is not the field's letter. When all three are absent, the
cursor is left on the character after the name's `:`. -/
theorem begin_absent_fields (pf : Platform) (pin : Nat) (name notes : List Char)
    (h : Header) (hname : ':' ∉ name) (hwf : h.WellFormed pf) (hun : h.Unambiguous notes) :
    ∃ s', (∀ s, begin pf s pin (name ++ ':' :: (h.chars ++ notes)) = .ok (s', [Cmd.noTone pin])) ∧
      (h.dur = none → s'.default_dur = 4) ∧
      (h.oct = none → s'.default_oct = 6) ∧
      (h.bpm = none → s'.bpm = 63) ∧
      (h.dur = none → h.oct = none → h.bpm = none →
        s'.buffer = name.length + 1 ∧ peek s'.text s'.buffer = .ok (notes.headD NUL)) := by
  refine ⟨_, fun s => begin_header pf s pin name notes h hname hwf hun, ?_, ?_, ?_, ?_⟩
  · intro hd
    simp [Header.durValue, hd]
  · intro ho
    simp [Header.octValue, ho]
  · intro hb
    simp [Header.bpmValue, hb]
  · intro hd ho hb
    have hc : h.chars = [] := by
      simp [Header.chars, Header.durChars, Header.octChars, Header.bpmChars, hd, ho, hb]
    simp only [hc, List.length_nil, Nat.add_zero, List.nil_append, true_and]
    exact ((at_append name (':' :: notes)).next).peek_eq

/-- C4, witness: the song `x:o=5,c` has no `d=` and no `b=` field; they keep 4
and 63. -/
theorem begin_absent_fields_witness :
    (begin avr init 8 "x:o=5,c".toList).map (fun r => (r.1.default_dur, r.1.bpm)) =
      .ok (4, 63) := by
  obtain ⟨s', h1, h2, _, h4, _⟩ := begin_absent_fields avr 8 ['x'] ['c'] ⟨none, some '5', none⟩
    (by decide)
    ⟨(fun D hD => by cases hD), (fun B hB => by cases hB)⟩
    ⟨(fun _ => by decide), (fun ho => by cases ho), (fun _ => by decide)⟩
  have e : begin avr init 8 "x:o=5,c".toList = .ok (s', [Cmd.noTone 8]) := h1 init
  rw [e]
  simp only [Except.map, h2 rfl, h4 rfl]

/-- C4, counterexample: the song `x:d#5,c` has no header field, its first note
is `d#5`; `begin` reads the note as a `d=` field and stores duration 5. (With a
field `b=0`, as in `x:o=5,b=0:c`, `begin` divides by zero.) -/
theorem begin_absent_fields_counterexample :
    "x:d#5,c".toList
        = "x".toList ++ ':' :: (Header.chars ⟨none, none, none⟩ ++ "d#5,c".toList) ∧
      (begin avr init 8 "x:d#5,c".toList).map (fun r => (r.1.default_dur, r.1.buffer))
        = .ok (5, 6) ∧
      (begin esp32 init 8 "x:d#5,c".toList).map (fun r => (r.1.default_dur, r.1.buffer))
        = .ok (5, 6) ∧
      begin avr init 8 "x:o=5,b=0:c".toList = .error Fault.divByZero ∧
      begin esp32 init 8 "x:o=5,b=0:c".toList = .error Fault.divByZero := by
  refine ⟨by rfl, by rfl, by rfl, by rfl, by rfl⟩

/-- C5 (amended). On a song `name:header notes` whose header establishes
`bpm > 0` (the `b=` field or the default 63), after `begin` the whole note is
`(60000 / bpm) * 4`, the quotient rounded down before the multiplication. -/
theorem begin_wholenote (pf : Platform) (s : State) (pin : Nat) (name notes : List Char)
    (h : Header) (hname : ':' ∉ name) (hwf : h.WellFormed pf) (hun : h.Unambiguous notes)
    (hpos : 0 < h.bpmValue pf) :
    ∃ s', begin pf s pin (name ++ ':' :: (h.chars ++ notes)) = .ok (s', [Cmd.noTone pin]) ∧
      s'.bpm = h.bpmValue pf ∧ s'.wholenote = 60000 / s'.bpm * 4 := by
  refine ⟨_, begin_header pf s pin name notes h hname hwf hun, rfl, ?_⟩
  simp only
  rw [Int.tdiv_eq_ediv (by norm_num) (le_of_lt hpos)]

/-- C5, witness: with the default 63 beats per minute the whole note is
`952 * 4 = 3808`. -/
theorem begin_wholenote_witness :
    (begin avr init 8 "x:c".toList).map (fun r => (r.1.bpm, r.1.wholenote)) =
      .ok (63, 3808) := by
  obtain ⟨s', h1, h2, h4⟩ := begin_wholenote avr init 8 ['x'] ['c'] ⟨none, none, none⟩
    (by decide)
    ⟨(fun D hD => by cases hD), (fun B hB => by cases hB)⟩
    ⟨(fun _ => by decide), (fun _ => by decide), (fun _ => by decide)⟩ (by decide)
  have e : begin avr init 8 "x:c".toList = .ok (s', [Cmd.noTone 8]) := h1
  have hb : s'.bpm = 63 := h2
  rw [hb] at h4
  rw [e]
  simp only [Except.map, hb, h4]
  rfl

/-- C5, counterexample: with the default 63 beats per minute `begin` stores the
whole note 3808, while `60000 * 4 / 63` rounded down is 3809. -/
theorem begin_wholenote_counterexample :
    (begin avr init 8 "x:c".toList).map (fun r => (r.1.bpm, r.1.wholenote)) = .ok (63, 3808) ∧
      (begin esp32 init 8 "x:c".toList).map (fun r => (r.1.bpm, r.1.wholenote))
        = .ok (63, 3808) ∧
      (60000 * 4 / 63 : Int) = 3809 := by
  refine ⟨by rfl, by rfl, by decide⟩

/-- C6. A due poll of a playing state whose cursor is in front of a note token
first silences the output, then tokenizes the note. For a rest (pitch class 0)
no tone is started and `noteDelay` becomes `now + duration`; otherwise one tone
is started, with the frequency `notes[(octave - 4) * 12 + pitchClass]`, and
`noteDelay` becomes `now + duration + 1`. The sums are those of the 32-bit
`unsigned long` (`toULong`); they are the plain sums when they stay below
`2 ^ 32`. The bare token `p` is a rest of duration `wholenote / default_dur`. -/
theorem play_programs_note (pf : Platform) (s : State) (t : Token) (rest : List Char)
    (m now : Nat) (hwf : t.WellFormed) (hL : t.letter ≠ NUL)
    (hat : At s.text s.buffer (t.chars ++ rest)) (hend : t.EndsBefore (rest.headD NUL))
    (hD0 : 0 < s.default_dur) (hplay : s.playing = true) (hdue : s.noteDelay ≤ m) :
    play pf s m now =
        .ok ({ s with buffer := s.buffer + t.chars.length,
                      noteDelay :=
                        if (t.event pf s).note = 0 then toULong ((now : Int) + (t.event pf s).duration)
                        else toULong ((now : Int) + (t.event pf s).duration + 1) },
             if (t.event pf s).note = 0 then [Cmd.noTone s.pin]
             else [Cmd.noTone s.pin,
                   Cmd.tone s.pin
                     (tableAt pf ((((t.event pf s).scale : Int) - 4) * 12 + (t.event pf s).note))
                     (t.event pf s).duration],
             some (t.event pf s)) ∧
      (0 ≤ (t.event pf s).duration → (now : Int) + (t.event pf s).duration + 1 < 4294967296 →
        toULong ((now : Int) + (t.event pf s).duration) = now + (t.event pf s).duration.toNat ∧
        toULong ((now : Int) + (t.event pf s).duration + 1)
          = now + (t.event pf s).duration.toNat + 1) ∧
      (t.digits = [] → t.letter = 'p' → t.sharp = false → t.dot1 = false → t.dot2 = false →
        (t.event pf s).note = 0 ∧ (t.event pf s).duration = Int.tdiv s.wholenote s.default_dur) := by
  have htok := nextnoteToken_token pf s rest t hwf hat
    (fun _ => Nat.pos_iff_ne_zero.mp hD0) hend
  refine ⟨?_, ?_, ?_⟩
  · rw [play_due pf s m now _ hplay hdue hat.peek_eq (token_head_ne_nul t rest hwf hL),
      nextnote_of_token pf s now _ _ htok]
    rfl
  · intro h0 h1
    rw [toULong_of_lt _ (by omega) (by omega), toULong_of_lt _ (by omega) (by omega)]
    omega
  · intro hds hp hs h1 h2
    simp [Token.event, Token.base, hds, hp, hs, h1, h2, numOf, digitLoop, specPitchClass]

/-- C6, witness: the song `x:p,c6` polled at time 5 with both clock readings 5:
the rest `p` silences pin 8, starts no tone and is due again at `5 + 952`. -/
theorem play_programs_note_witness :
    play avr (playingAt "x:p,c6".toList 2) 5 5 =
      .ok ({ playingAt "x:p,c6".toList 4 with noteDelay := 957 }, [Cmd.noTone 8],
        some { note := 0, scale := 6, duration := 952 }) :=
  (play_programs_note avr (playingAt "x:p,c6".toList 2)
    ⟨[], 'p', false, false, none, false, true⟩ ['c', '6'] 5 5
    ⟨by decide, by decide, by decide, by decide⟩ (by decide) ⟨['x', ':'], rfl, rfl⟩
    (by simp [Token.EndsBefore]) (by decide) rfl (by decide)).1

/-- C7. A poll of an idle state, or of a playing state before `noteDelay`, gives
back the state as it was and calls neither `tone` nor `noTone`. -/
theorem play_noop (pf : Platform) (s : State) (m now : Nat)
    (h : s.playing = false ∨ m < s.noteDelay) : play pf s m now = .ok (s, [], none) :=
  play_idle_or_early pf s m now h

/-- C7, witness: after the rest of `x:p,c6`, due at 957, a poll at 956 does
nothing. -/
theorem play_noop_witness :
    play avr { playingAt "x:p,c6".toList 4 with noteDelay := 957 } 956 956 =
      .ok ({ playingAt "x:p,c6".toList 4 with noteDelay := 957 }, [], none) :=
  play_noop avr _ 956 956 (Or.inr (by decide))

/-- C8 (amended). Whatever the clock readings of a run of polls, the notes it
tokenizes are an initial segment of the note section read from left to right
(the whole of it: more fuel gives no more notes): none is skipped, repeated or
reordered, and one poll tokenizes at most one note. After a note of duration
`d` tokenized at clock reading `t`, polls at readings in `[t, t + d)` tokenize
nothing and leave the state as it is, provided the due time does not wrap:
`t + d + 1 < 2 ^ 32`. -/
theorem polls_in_order (pf : Platform) (s : State) (ps : List (Nat × Nat)) :
    (polls pf s ps).2.1 <+: noteSection pf s ∧
      (∀ fuel, s.text.length + 1 ≤ fuel →
        tokenizeFrom pf s fuel s.buffer = noteSection pf s) ∧
      (∀ p, (polls pf s [p]).2.1.length ≤ 1) ∧
      (∀ (m t : Nat) (s' : State) (cmds : List Cmd) (ev : NoteEvent),
        play pf s m t = .ok (s', cmds, some ev) →
        (t : Int) + ev.duration + 1 < 4294967296 →
        ∀ qs : List (Nat × Nat), (∀ q ∈ qs, t ≤ q.1 ∧ (q.1 : Int) < t + ev.duration) →
          polls pf s' qs = (s', [], none)) := by
  refine ⟨polls_initial_segment pf ps s, ?_, ?_, ?_⟩
  · intro fuel hfuel
    exact tokenizeFrom_fuel pf s fuel (s.text.length + 1) s.buffer (by omega) (by omega)
  · intro p
    simp only [polls]
    cases play pf s p.1 p.2 with
    | error e => simp
    | ok r =>
      obtain ⟨s', cmds, oev⟩ := r
      cases oev <;> simp
  · intro m t s' cmds ev hplay hwrap qs hqs
    apply polls_early
    intro q hq
    obtain ⟨hq1, hq2⟩ := hqs q hq
    rcases play_cases pf s m t s' cmds (some ev) hplay with
      ⟨_, ho⟩ | ⟨_, ho⟩ | ⟨c, ev', j, _, _, _, ho, hs⟩
    · cases ho
    · cases ho
    · cases ho
      rw [hs]
      simp only
      split
      · rw [toULong_of_lt _ (by omega) (by omega)]
        omega
      · rw [toULong_of_lt _ (by omega) (by omega)]
        omega

/-- C8, witness: the song `x:c,d` polled at 0, 10, 952 and 953 plays `c` then
`d`; after `c`, tokenized at 0 with duration 952, the polls at 10 and 951 do
nothing. -/
theorem polls_in_order_witness :
    (polls avr (playingAt "x:c,d".toList 2) [(0, 0), (10, 10), (952, 952), (953, 953)]).2.1
        <+: noteSection avr (playingAt "x:c,d".toList 2) ∧
      polls avr { playingAt "x:c,d".toList 4 with noteDelay := 953 } [(10, 10), (951, 951)]
        = ({ playingAt "x:c,d".toList 4 with noteDelay := 953 }, [], none) :=
  ⟨(polls_in_order avr (playingAt "x:c,d".toList 2)
      [(0, 0), (10, 10), (952, 952), (953, 953)]).1,
   (polls_in_order avr (playingAt "x:c,d".toList 2) []).2.2.2 0 0
      { playingAt "x:c,d".toList 4 with noteDelay := 953 }
      [Cmd.noTone 8, Cmd.tone 8 (some 1047) 952] { note := 1, scale := 6, duration := 952 }
      rfl (by decide) [(10, 10), (951, 951)] (by decide)⟩

/-- C8, counterexample: the first poll of `x:c,d` at clock reading 4294967290
tokenizes `c`, of duration 952; the due time wraps to 947, and the next poll,
one millisecond later and inside `[t, t + 952)`, tokenizes `d`. -/
theorem polls_in_order_counterexample :
    polls avr (playingAt "x:c,d".toList 2)
        [(4294967290, 4294967290), (4294967291, 4294967291)] =
      ({ playingAt "x:c,d".toList 5 with noteDelay := 948 },
       [{ note := 1, scale := 6, duration := 952 }, { note := 3, scale := 6, duration := 952 }],
       none) ∧
      (play avr (playingAt "x:c,d".toList 2) 4294967290 4294967290).map (fun r => r.1.noteDelay)
        = .ok 947 ∧
      (4294967290 : Nat) ≤ 4294967291 ∧ (4294967291 : Nat) < 4294967290 + 952 := by
  refine ⟨by rfl, by rfl, by decide, by decide⟩

/-- C9. A due poll of a playing state whose cursor is on the terminating NUL
makes the state idle, calls `noTone` once and `tone` not at all; afterwards
`done` is true and `isPlaying` false. In every state `done` is the negation of
`isPlaying`. -/
theorem play_end_of_song (pf : Platform) (s : State) (m now : Nat)
    (hplay : s.playing = true) (hdue : s.noteDelay ≤ m)
    (hend : peek s.text s.buffer = .ok NUL) :
    play pf s m now = .ok ({ s with playing := false }, [Cmd.noTone s.pin], none) ∧
      done { s with playing := false } = true ∧
      isPlaying { s with playing := false } = false ∧
      ∀ s' : State, done s' = !isPlaying s' := by
  refine ⟨?_, rfl, rfl, fun _ => rfl⟩
  have hin := peek_ok_le _ _ _ hend
  have hat := at_of_le _ _ hin
  have hhead : (s.text.drop s.buffer).headD NUL = NUL := by
    have := hat.peek_eq
    rw [hend] at this
    exact (Except.ok.inj this).symm
  unfold play
  simp only [hplay, Bool.not_true, Bool.false_eq_true, if_false, not_lt.mpr hdue, hend, bind,
    Except.bind, if_true, stop_playing s hplay hin, nulLoop_of_head _ _ hhead, pure,
    Except.pure]

/-- C9, witness: the song `x:c` with the cursor at its end, polled when due. -/
theorem play_end_of_song_witness :
    play avr { playingAt "x:c".toList 3 with noteDelay := 953 } 953 953 =
      .ok ({ playingAt "x:c".toList 3 with noteDelay := 953, playing := false },
        [Cmd.noTone 8], none) :=
  (play_end_of_song avr { playingAt "x:c".toList 3 with noteDelay := 953 } 953 953 rfl
    (by decide) rfl).1

/-- C10. `stop` on a playing state (cursor inside the text) gives an idle state
with the cursor moved forward onto the terminating NUL and nothing else changed,
calls `noTone` on the bound pin and makes `done` true; `stop` on an idle state
changes nothing and calls nothing; `stop` after `stop` gives the state of the
first `stop` and calls nothing. -/
theorem stop_halts (s : State) (hin : s.buffer ≤ s.text.length) :
    (s.playing = true →
      ∃ i, stop s = .ok ({ s with buffer := i, playing := false }, [Cmd.noTone s.pin]) ∧
        peek s.text i = .ok NUL ∧ s.buffer ≤ i ∧ (NUL ∉ s.text → i = s.text.length) ∧
        done { s with buffer := i, playing := false } = true) ∧
      (s.playing = false → stop s = .ok (s, [])) ∧
      (∀ s0 : State, (stop s0).bind (fun r => stop r.1) = (stop s0).map (fun r => (r.1, []))) := by
  refine ⟨?_, stop_idle s, ?_⟩
  · intro hplay
    have hat := at_of_le _ _ hin
    obtain ⟨h1, h2, _⟩ := nulLoop_at s.text _ _ hat
    refine ⟨_, stop_playing s hplay hin, h1, h2, ?_, rfl⟩
    intro hnul
    have hd : NUL ∉ s.text.drop s.buffer := fun h => hnul (List.mem_of_mem_drop h)
    simp only [nulLoop_no_nul _ _ hd, List.length_drop]
    omega
  · intro s0
    by_cases hp : s0.playing = true
    · by_cases hb : s0.buffer ≤ s0.text.length
      · rw [stop_playing s0 hp hb]
        exact stop_idle _ rfl
      · simp [stop, hp, hb, Except.bind, Except.map, throw, throwThe, MonadExceptOf.throw]
    · have hp' : s0.playing = false := by simpa using hp
      rw [stop_idle s0 hp']
      exact stop_idle s0 hp'

/-- C10, witness: `stop` in the middle of the song `x:p,c6` leaves the cursor at
the end, index 6, and silences pin 8. -/
theorem stop_halts_witness :
    (stop (playingAt "x:p,c6".toList 4)).map (fun r => (r.1.playing, r.1.buffer, r.2)) =
      .ok (false, 6, [Cmd.noTone 8]) := by
  obtain ⟨i, h, _, _, hi, _⟩ := (stop_halts (playingAt "x:p,c6".toList 4) (by decide)).1 rfl
  rw [h, hi (by decide)]
  rfl

/-- C11 (amended). From any prior state, on a song `name:header notes` in the
documented format, `begin` gives a playing state bound to the given pin, calls
`noTone` on that pin and sets `noteDelay` to 0 (it does not read the clock), so
that the first poll, at any clock reading, is due: it tokenizes the first note
or ends the song. The result of `begin` depends on its arguments only. -/
theorem begin_restarts (pf : Platform) (pin : Nat) (name notes : List Char) (h : Header)
    (hname : ':' ∉ name) (hwf : h.WellFormed pf) (hun : h.Unambiguous notes) :
    ∃ s', (∀ s, begin pf s pin (name ++ ':' :: (h.chars ++ notes)) = .ok (s', [Cmd.noTone pin])) ∧
      s'.playing = true ∧ s'.pin = pin ∧ s'.noteDelay = 0 ∧
      peek s'.text s'.buffer = .ok (notes.headD NUL) ∧
      (∀ m now, play pf s' m now = duePoll pf s' now) ∧
      (∀ (s1 s2 : State) (text : List Char), begin pf s1 pin text = begin pf s2 pin text) := by
  refine ⟨_, fun s => begin_header pf s pin name notes h hname hwf hun, rfl, rfl, rfl, ?_, ?_,
    fun s1 s2 text => begin_indep pf s1 s2 pin text⟩
  · have h0 : At (name ++ ':' :: (h.chars ++ notes)) (name.length + 1 + h.chars.length) notes := by
      have := ((at_append name (':' :: (h.chars ++ notes))).next).skip
      exact this
    exact h0.peek_eq
  · intro m now
    exact play_eq_duePoll pf _ m now rfl (Nat.zero_le m)

/-- C11, witness: `begin` on `x:c` from the initial state; the first poll, at
clock reading 1000, plays `c`. -/
theorem begin_restarts_witness :
    (begin avr init 8 "x:c".toList).map (fun r => (r.1.playing, r.1.pin, r.1.noteDelay, r.2)) =
        .ok (true, 8, 0, [Cmd.noTone 8]) ∧
      play avr (playingAt "x:c".toList 2) 1000 1000 =
        .ok ({ playingAt "x:c".toList 3 with noteDelay := 1953 },
          [Cmd.noTone 8, Cmd.tone 8 (some 1047) 952],
          some { note := 1, scale := 6, duration := 952 }) := by
  obtain ⟨s', h1, h2, h3, h4, _, h6, _⟩ := begin_restarts avr 8 ['x'] ['c'] ⟨none, none, none⟩
    (by decide) ⟨(fun D hD => by cases hD), (fun B hB => by cases hB)⟩
    ⟨(fun _ => by decide), (fun _ => by decide), (fun _ => by decide)⟩
  have e : begin avr init 8 "x:c".toList = .ok (s', [Cmd.noTone 8]) := h1 init
  have e' : begin avr init 8 "x:c".toList = .ok (playingAt "x:c".toList 2, [Cmd.noTone 8]) := by
    rfl
  have hs : s' = playingAt "x:c".toList 2 := by
    have := e.symm.trans e'
    simp only [Except.ok.injEq, Prod.mk.injEq, and_true] at this
    exact this
  refine ⟨?_, ?_⟩
  · rw [e]
    simp only [Except.map, h2, h3, h4]
  · rw [← hs, h6 1000 1000, hs]
    rfl

/-- C11, counterexample: `begin` does not read the clock; whatever the clock
reading at the call, 1000 say, `noteDelay` is 0 afterwards. -/
theorem begin_restarts_counterexample :
    (begin avr init 8 "x:c".toList).map (fun r => r.1.noteDelay) = .ok 0 ∧
      (begin esp32 init 8 "x:c".toList).map (fun r => r.1.noteDelay) = .ok 0 ∧
      (0 : Nat) ≠ 1000 := by
  refine ⟨by rfl, by rfl, by decide⟩

/-- C12 (amended). On a song `name:header notes` whose header is well formed and
unambiguous (no absent field's letter stands where `begin` tests for it),
`begin` leaves the cursor on the first character of the first note token, and
the first poll tokenizes that note (when the duration denominator in force is
not zero). -/
theorem begin_cursor_on_first_note (pf : Platform) (s : State) (pin : Nat)
    (name rest : List Char) (h : Header) (t : Token)
    (hname : ':' ∉ name) (hwf : h.WellFormed pf) (hun : h.Unambiguous (t.chars ++ rest))
    (htw : t.WellFormed) (hL : t.letter ≠ NUL) (hend : t.EndsBefore (rest.headD NUL)) :
    ∃ s', begin pf s pin (name ++ ':' :: (h.chars ++ (t.chars ++ rest)))
          = .ok (s', [Cmd.noTone pin]) ∧
      s'.buffer = (name ++ ':' :: h.chars).length ∧
      At s'.text s'.buffer (t.chars ++ rest) ∧
      ((numOf pf t.digits = 0 → h.durValue pf ≠ 0) →
        ∀ m now, (play pf s' m now).map (fun r => (r.2.2, r.1.buffer)) =
          .ok (some (t.event pf s'), s'.buffer + t.chars.length)) := by
  have h0 : At (name ++ ':' :: (h.chars ++ (t.chars ++ rest)))
      (name.length + 1 + h.chars.length) (t.chars ++ rest) :=
    ((at_append name (':' :: (h.chars ++ (t.chars ++ rest)))).next).skip
  refine ⟨_, begin_header pf s pin name (t.chars ++ rest) h hname hwf hun, ?_, h0, ?_⟩
  · simp only [List.length_append, List.length_cons]
    omega
  · intro hD m now
    rw [play_token pf _ t rest m now htw hL h0 hend hD rfl (Nat.zero_le m)]
    rfl

/-- C12, witness: on `x:o=5,8c#,d` the cursor is left at index 6, on the `8` of
the first note, and the first poll tokenizes `8c#`. -/
theorem begin_cursor_on_first_note_witness :
    (begin avr init 8 "x:o=5,8c#,d".toList).map (fun r => r.1.buffer) = .ok 6 ∧
      (play avr { playingAt "x:o=5,8c#,d".toList 6 with default_oct := 5 } 0 0).map
          (fun r => (r.2.2, r.1.buffer)) =
        .ok (some { note := 2, scale := 5, duration := 476 }, 10) := by
  obtain ⟨s', h1, h2, _, h4⟩ := begin_cursor_on_first_note avr init 8 ['x'] ['d']
    ⟨none, some '5', none⟩ ⟨['8'], 'c', true, false, none, false, true⟩
    (by decide) ⟨(fun D hD => by cases hD), (fun B hB => by cases hB)⟩
    ⟨(fun _ => by decide), (fun ho => by cases ho), (fun _ => by decide)⟩
    ⟨by decide, by decide, by decide, by decide⟩ (by decide) (by simp [Token.EndsBefore])
  have e : begin avr init 8 "x:o=5,8c#,d".toList = .ok (s', [Cmd.noTone 8]) := h1
  have e' : begin avr init 8 "x:o=5,8c#,d".toList
      = .ok ({ playingAt "x:o=5,8c#,d".toList 6 with default_oct := 5 }, [Cmd.noTone 8]) := by
    rfl
  have hs : s' = { playingAt "x:o=5,8c#,d".toList 6 with default_oct := 5 } := by
    have := e.symm.trans e'
    simp only [Except.ok.injEq, Prod.mk.injEq, and_true] at this
    exact this
  refine ⟨?_, ?_⟩
  · rw [e]
    simp only [Except.map, h2]
    rfl
  · have := h4 (fun hn => by revert hn; decide) 0 0
    rw [hs] at this
    rw [this]
    rfl

/-- C12, counterexample: the song `x:d#5,c` has no header field and its first
note token `d#5` starts at index 2; `begin` reads it as a `d=` field, leaves the
cursor at index 6, on the second note, and the first poll tokenizes `c` (with
the duration denominator 5), not `d#5`. -/
theorem begin_cursor_on_first_note_counterexample :
    "x:d#5,c".toList
        = "x".toList ++ ':' :: (Header.chars ⟨none, none, none⟩ ++ "d#5,c".toList) ∧
      (begin avr init 8 "x:d#5,c".toList).map (fun r => r.1.buffer) = .ok 6 ∧
      (begin esp32 init 8 "x:d#5,c".toList).map (fun r => r.1.buffer) = .ok 6 ∧
      ((begin avr init 8 "x:d#5,c".toList).bind (fun r => play avr r.1 0 0)).map
          (fun r => r.2.2) = .ok (some { note := 1, scale := 6, duration := 761 }) := by
  refine ⟨by rfl, by rfl, by rfl, by rfl⟩

/-- C13 (amended). The code does not clamp the octave. For a note token (not a
pause) whose octave in force, its digit or else the default octave, lies
between 4 and 7, other than `b#` in octave 7, the index
`(octave - 4) * 12 + pitchClass` lies between 1 and 48, inside the table of 49
frequencies, and the poll starts the tone with the frequency read there. -/
theorem tone_index_in_table (pf : Platform) (s : State) (t : Token) (rest : List Char)
    (m now : Nat) (hwf : t.WellFormed) (hL : t.letter ≠ NUL)
    (hat : At s.text s.buffer (t.chars ++ rest)) (hend : t.EndsBefore (rest.headD NUL))
    (hD0 : numOf pf t.digits = 0 → s.default_dur ≠ 0)
    (hplay : s.playing = true) (hdue : s.noteDelay ≤ m)
    (hnote : (t.event pf s).note ≠ 0)
    (hlo : 4 ≤ (t.event pf s).scale) (hhi : (t.event pf s).scale ≤ 7)
    (hb : (t.event pf s).scale = 7 → (t.event pf s).note ≠ 13) :
    1 ≤ (((t.event pf s).scale : Int) - 4) * 12 + (t.event pf s).note ∧
      (((t.event pf s).scale : Int) - 4) * 12 + (t.event pf s).note ≤ 48 ∧
      ∃ f, (notes pf)[((((t.event pf s).scale : Int) - 4) * 12 + (t.event pf s).note).toNat]?
            = some f ∧
        (play pf s m now).map (fun r => (r.2.1, r.2.2)) =
          .ok ([Cmd.noTone s.pin, Cmd.tone s.pin (some f) (t.event pf s).duration],
               some (t.event pf s)) := by
  have h13 : (t.event pf s).note ≤ 13 := by
    have := specPitchClass_le t.letter
    show specPitchClass t.letter + (if t.sharp then 1 else 0) ≤ 13
    split <;> omega
  have hi1 : 1 ≤ (((t.event pf s).scale : Int) - 4) * 12 + (t.event pf s).note := by omega
  have hi2 : (((t.event pf s).scale : Int) - 4) * 12 + (t.event pf s).note ≤ 48 := by
    by_cases h7 : (t.event pf s).scale = 7
    · have := hb h7
      omega
    · omega
  obtain ⟨f, hf, hf'⟩ := tableAt_in_range pf _ (by omega) hi2
  refine ⟨hi1, hi2, f, hf', ?_⟩
  rw [play_token pf s t rest m now hwf hL hat hend hD0 hplay hdue, if_neg hnote, if_neg hnote, hf]
  rfl

/-- C13, witness: `a7`, the index is 46 and the frequency read is `NOTE_A7`. -/
theorem tone_index_in_table_witness :
    (1 : Int) ≤ ((7 : Nat) - 4) * 12 + (10 : Nat) ∧
      ∃ f, (notes avr)[((((7 : Nat) : Int) - 4) * 12 + (10 : Nat)).toNat]? = some f ∧
        (play avr (playingAt "x:a7".toList 2) 0 0).map (fun r => (r.2.1, r.2.2)) =
          .ok ([Cmd.noTone 8, Cmd.tone 8 (some f) 952],
               some { note := 10, scale := 7, duration := 952 }) := by
  obtain ⟨h1, _, f, hf, hp⟩ := tone_index_in_table avr (playingAt "x:a7".toList 2)
    ⟨[], 'a', false, false, some '7', false, false⟩ [] 0 0
    ⟨by decide, by decide, by decide, by decide⟩ (by decide)
    (at_of_le "x:a7".toList 2 (by decide)) (endsBefore_nul _) (fun _ => by decide) rfl
    (Nat.le_refl 0) (by decide) (by decide) (by decide) (by decide)
  exact ⟨h1, f, hf, hp⟩

/-- C13, counterexample: the octave is not clamped. `c8` gives the index 49 and
`c3` the index -11, both outside the table; so does the default octave 3 that
`begin` accepts from `o=3`. -/
theorem tone_index_in_table_counterexample :
    (play avr (playingAt "x:c8".toList 2) 0 0).map (fun r => (r.2.1, r.2.2)) =
        .ok ([Cmd.noTone 8, Cmd.tone 8 (tableAt avr 49) 952],
             some { note := 1, scale := 8, duration := 952 }) ∧
      tableAt avr 49 = none ∧ ((8 : Int) - 4) * 12 + 1 = 49 ∧
      (play avr (playingAt "x:c3".toList 2) 0 0).map (fun r => (r.2.1, r.2.2)) =
        .ok ([Cmd.noTone 8, Cmd.tone 8 (tableAt avr (-11)) 952],
             some { note := 1, scale := 3, duration := 952 }) ∧
      tableAt avr (-11) = none ∧ ((3 : Int) - 4) * 12 + 1 = -11 ∧
      (begin avr init 8 "x:o=3:c".toList).map (fun r => r.1.default_oct) = .ok 3 := by
  refine ⟨by rfl, by rfl, by decide, by rfl, by rfl, by decide, by rfl⟩

/-- C14. The `b=` field is stored without a guard: with `b=0`, or `b=` followed
by no digit, `bpm` becomes 0 and `begin` divides by zero when it computes
`wholenote`. -/
theorem begin_zero_bpm :
    bpmField avr "x:b=0:c".toList 2 63 = .ok (6, 0) ∧
      begin avr init 8 "x:b=0:c".toList = .error Fault.divByZero ∧
      begin esp32 init 8 "x:b=0:c".toList = .error Fault.divByZero ∧
      bpmField avr "x:b=:c".toList 2 63 = .ok (5, 0) ∧
      begin avr init 8 "x:b=:c".toList = .error Fault.divByZero ∧
      begin esp32 init 8 "x:b=:c".toList = .error Fault.divByZero := by
  refine ⟨by rfl, by rfl, by rfl, by rfl, by rfl, by rfl⟩

/-- C15 (amended). The header scan is not bounded by the text; on a song
`name:header notes` whose name is followed by `:` and whose header fields are
complete and unambiguous, `begin` returns, with the cursor just after the
header, inside the text (a read beyond the terminating NUL is a fault
`outOfBounds`, so no read went beyond it), and an absent field keeps its
default. -/
theorem begin_scan_in_text (pf : Platform) (s : State) (pin : Nat) (name notes : List Char)
    (h : Header) (hname : ':' ∉ name) (hwf : h.WellFormed pf) (hun : h.Unambiguous notes) :
    ∃ s', begin pf s pin (name ++ ':' :: (h.chars ++ notes)) = .ok (s', [Cmd.noTone pin]) ∧
      s'.text = name ++ ':' :: (h.chars ++ notes) ∧
      s'.buffer = (name ++ ':' :: h.chars).length ∧ s'.buffer ≤ s'.text.length ∧
      (h.dur = none → s'.default_dur = 4) ∧ (h.oct = none → s'.default_oct = 6) ∧
      (h.bpm = none → s'.bpm = 63 ∧ s'.wholenote = 3808) := by
  refine ⟨_, begin_header pf s pin name notes h hname hwf hun, rfl, ?_, ?_, ?_, ?_, ?_⟩
  · simp only [List.length_append, List.length_cons]
    omega
  · simp only [List.length_append, List.length_cons]
    omega
  · intro hd
    simp only [Header.durValue, hd]
  · intro ho
    simp only [Header.octValue, ho]
  · intro hb
    simp only [Header.bpmValue, hb]
    decide

/-- C15, witness: the song `x:c` has a name, its `:` and no header field. -/
theorem begin_scan_in_text_witness :
    ∃ s', begin avr init 8 "x:c".toList = .ok (s', [Cmd.noTone 8]) ∧
      s'.buffer = 2 ∧ s'.buffer ≤ s'.text.length ∧ s'.default_dur = 4 ∧ s'.default_oct = 6 ∧
      s'.bpm = 63 ∧ s'.wholenote = 3808 := by
  obtain ⟨s', h1, _, h3, h4, h5, h6, h7⟩ := begin_scan_in_text avr init 8 ['x'] ['c']
    ⟨none, none, none⟩ (by decide) ⟨(fun D hD => by cases hD), (fun B hB => by cases hB)⟩
    ⟨(fun _ => by decide), (fun _ => by decide), (fun _ => by decide)⟩
  exact ⟨s', h1, h3, h4, h5 rfl, h6 rfl, (h7 rfl).1, (h7 rfl).2⟩

/-- C15, counterexample: on `abc`, which has no `:`, the scan for the `:` passes
the terminating NUL (index 3) and reads at index 4; on `x:d=4`, whose `d=` field
lacks its separator, the cursor is moved past the NUL and the test for `o=`
reads at index 6 of a text of length 5. -/
theorem begin_scan_in_text_counterexample :
    begin avr init 8 "abc".toList = .error (Fault.outOfBounds 4) ∧
      begin esp32 init 8 "abc".toList = .error (Fault.outOfBounds 4) ∧
      "abc".toList.length = 3 ∧
      begin avr init 8 "x:d=4".toList = .error (Fault.outOfBounds 6) ∧
      begin esp32 init 8 "x:d=4".toList = .error (Fault.outOfBounds 6) ∧
      "x:d=4".toList.length = 5 := by
  refine ⟨by rfl, by rfl, by rfl, by rfl, by rfl, by rfl⟩

/-- C16 (amended). The test of `play` is the plain comparison `m < noteDelay`.
After a note transition at clock reading `t` that waits `d` milliseconds, with
`t + d` below 2^32, a poll at a reading `t'` not before `t` (the clock has not
wrapped since) does nothing when `t' - t < d` and is due when `d ≤ t' - t`. -/
theorem play_due_test (pf : Platform) (s : State) (m t : Nat) (s' : State) (cmds : List Cmd)
    (ev : NoteEvent) (d t' now' : Nat)
    (h : play pf s m t = .ok (s', cmds, some ev))
    (hd : (d : Int) = if ev.note = 0 then ev.duration else ev.duration + 1)
    (hsum : t + d < 4294967296) (ht' : t ≤ t') :
    s'.noteDelay = t + d ∧
      (t' - t < d → play pf s' t' now' = .ok (s', [], none)) ∧
      (d ≤ t' - t → play pf s' t' now' = duePoll pf s' now') := by
  have hplay : s.playing = true := by
    by_contra hp
    rw [play_idle_or_early pf s m t (Or.inl (by simpa using hp))] at h
    simp at h
  rcases play_result pf s m t s' cmds (some ev) h with
    ⟨_, _, ho⟩ | ⟨_, ho, _, _⟩ | ⟨c, ev', j, _, _, _, ho, hs⟩
  · cases ho
  · cases ho
  · cases ho
    have hnd : s'.noteDelay = t + d := by
      rw [hs]
      show (if ev.note = 0 then toULong ((t : Int) + ev.duration)
        else toULong ((t : Int) + ev.duration + 1)) = t + d
      split
      · rename_i h0
        rw [if_pos h0] at hd
        rw [← hd, toULong_of_lt _ (by omega) (by omega)]
        omega
      · rename_i h0
        rw [if_neg h0] at hd
        rw [add_assoc, ← hd, toULong_of_lt _ (by omega) (by omega)]
        omega
    have hplay' : s'.playing = true := by
      rw [hs]
      exact hplay
    refine ⟨hnd, fun hlt => ?_, fun hle => ?_⟩
    · exact play_idle_or_early pf s' t' now' (Or.inr (by omega))
    · exact play_eq_duePoll pf s' t' now' hplay' (by omega)

/-- C16, witness: `c` is played at reading 1000 and waits 953 ms; a poll at
1952 does nothing, a poll at 1953 is due and plays `d`. -/
theorem play_due_test_witness :
    play avr { playingAt "x:c,d".toList 4 with noteDelay := 1953 } 1952 1952 =
        .ok ({ playingAt "x:c,d".toList 4 with noteDelay := 1953 }, [], none) ∧
      (play avr { playingAt "x:c,d".toList 4 with noteDelay := 1953 } 1953 1953).map
          (fun r => r.2.2) = .ok (some { note := 3, scale := 6, duration := 952 }) := by
  have h := play_due_test avr (playingAt "x:c,d".toList 2) 1000 1000
    { playingAt "x:c,d".toList 4 with noteDelay := 1953 }
    [Cmd.noTone 8, Cmd.tone 8 (some 1047) 952] { note := 1, scale := 6, duration := 952 } 953
  refine ⟨(h 1952 1952 (by rfl) (by decide) (by decide) (by decide)).2.1 (by decide), ?_⟩
  rw [(h 1953 1953 (by rfl) (by decide) (by decide) (by decide)).2.2 (by decide)]
  rfl

/-- C16, counterexample: the comparison is not made modulo 2^32. With `c`
played at reading 4294967290 the due time wraps to 947, and a poll one
millisecond later, at 4294967291, is treated as due (it plays `d`) although 1 is
less than the 953 ms to wait. With the pause `1000p` (3 ms) played at
4294967290 the due time is 4294967293, and a poll at reading 10, 16 ms later on
the wrapped clock, is treated as not due. -/
theorem play_due_test_counterexample :
    play avr (playingAt "x:c,d".toList 2) 4294967290 4294967290 =
        .ok ({ playingAt "x:c,d".toList 4 with noteDelay := 947 },
             [Cmd.noTone 8, Cmd.tone 8 (some 1047) 952],
             some { note := 1, scale := 6, duration := 952 }) ∧
      (play avr { playingAt "x:c,d".toList 4 with noteDelay := 947 } 4294967291 4294967291).map
          (fun r => r.2.2) = .ok (some { note := 3, scale := 6, duration := 952 }) ∧
      (4294967291 - 4294967290 : Int) % 4294967296 < 953 ∧
      play avr (playingAt "x:1000p,c".toList 2) 4294967290 4294967290 =
        .ok ({ playingAt "x:1000p,c".toList 8 with noteDelay := 4294967293 },
             [Cmd.noTone 8], some { note := 0, scale := 6, duration := 3 }) ∧
      play avr { playingAt "x:1000p,c".toList 8 with noteDelay := 4294967293 } 10 10 =
        .ok ({ playingAt "x:1000p,c".toList 8 with noteDelay := 4294967293 }, [], none) ∧
      (3 : Int) ≤ (10 - 4294967290 : Int) % 4294967296 := by
  refine ⟨by rfl, by rfl, by decide, by rfl, by rfl, by decide⟩

/-- C17 (amended). A sequence of `play` and `stop` calls that starts with the
cursor inside the text and returns leaves it inside the text. On a song
`name:header notes` with a well-formed, unambiguous header, a default duration
that is not stored as 0 and a note section made of whole note tokens separated
by commas, `begin` returns with the cursor inside the text, and every sequence
of `play` and `stop` calls after it returns, with the cursor inside the text. -/
theorem cursor_in_text (pf : Platform) (s : State) (pin : Nat) (name : List Char) (h : Header)
    (ts : List Token) (cs : List Call)
    (hname : ':' ∉ name) (hwf : h.WellFormed pf) (hun : h.Unambiguous (sectionChars ts))
    (hts : SectionWellFormed ts) (hD : h.durValue pf ≠ 0) :
    (∀ (cs0 : List Call) (s0 s1 : State), s0.buffer ≤ s0.text.length →
        calls pf s0 cs0 = .ok s1 → s1.buffer ≤ s1.text.length) ∧
      ∃ s0 s', begin pf s pin (name ++ ':' :: (h.chars ++ sectionChars ts))
            = .ok (s0, [Cmd.noTone pin]) ∧
        s0.buffer ≤ s0.text.length ∧ calls pf s0 cs = .ok s' ∧ s'.text = s0.text ∧
        s'.buffer ≤ s'.text.length := by
  refine ⟨fun cs0 s0 s1 hin hc => (calls_cursor pf cs0 s0 s1 hc).2.2 hin, ?_⟩
  have h0 : At (name ++ ':' :: (h.chars ++ sectionChars ts))
      (name.length + 1 + h.chars.length) (sectionChars ts) :=
    ((at_append name (':' :: (h.chars ++ sectionChars ts))).next).skip
  obtain ⟨s0, hb, htext, hbuf, hdur⟩ :
      ∃ s0, begin pf s pin (name ++ ':' :: (h.chars ++ sectionChars ts))
            = .ok (s0, [Cmd.noTone pin]) ∧
        s0.text = name ++ ':' :: (h.chars ++ sectionChars ts) ∧
        s0.buffer = name.length + 1 + h.chars.length ∧ s0.default_dur = h.durValue pf :=
    ⟨_, begin_header pf s pin name (sectionChars ts) h hname hwf hun, rfl, rfl, rfl⟩
  rw [← htext, ← hbuf] at h0
  rw [← hdur] at hD
  obtain ⟨s', hs'⟩ := calls_section pf cs s0 ts hts h0 hD
  have hin := h0.le
  exact ⟨s0, s', hb, hin, hs', (calls_cursor pf cs s0 s' hs').1,
    (calls_cursor pf cs s0 s' hs').2.2 hin⟩

/-- C17, witness: the song `x:c,8d#`, polled twice, stopped and polled again. -/
theorem cursor_in_text_witness :
    ∃ s0 s', begin avr init 8 "x:c,8d#".toList = .ok (s0, [Cmd.noTone 8]) ∧
      s0.buffer ≤ s0.text.length ∧
      calls avr s0 [Call.poll 0 0, Call.poll 1000 1000, Call.stop, Call.poll 2000 2000]
        = .ok s' ∧
      s'.text = s0.text ∧ s'.buffer ≤ s'.text.length :=
  (cursor_in_text avr init 8 ['x'] ⟨none, none, none⟩
    [⟨[], 'c', false, false, none, false, true⟩, ⟨['8'], 'd', true, false, none, false, false⟩]
    [Call.poll 0 0, Call.poll 1000 1000, Call.stop, Call.poll 2000 2000]
    (by decide) ⟨(fun D hD => by cases hD), (fun B hB => by cases hB)⟩
    ⟨(fun _ => by decide), (fun _ => by decide), (fun _ => by decide)⟩
    ⟨⟨by decide, by decide, by decide, by decide⟩, by decide, (fun _ => rfl),
      ⟨by decide, by decide, by decide, by decide⟩, by decide, (fun hne => absurd rfl hne),
      trivial⟩
    (by decide)).2

/-- C17, counterexample: on `x:b=100:4`, which ends with duration digits,
`begin` returns with the cursor at index 8 of a text of length 9, and the first
poll takes the terminating NUL for the note letter, moves the cursor past it and
reads at index 10; on `x:b=5`, which ends directly after the number of a header
field, `begin` returns with the cursor at index 6, beyond the length 5 of the
text. -/
theorem cursor_in_text_counterexample :
    (begin avr init 8 "x:b=100:4".toList).map (fun r => (r.1.buffer, r.1.text.length))
        = .ok (8, 9) ∧
      (begin avr init 8 "x:b=100:4".toList).bind (fun r => play avr r.1 0 0)
        = .error (Fault.outOfBounds 10) ∧
      (begin esp32 init 8 "x:b=100:4".toList).bind (fun r => play esp32 r.1 0 0)
        = .error (Fault.outOfBounds 10) ∧
      (begin avr init 8 "x:b=5".toList).map (fun r => (r.1.buffer, r.1.text.length)) = .ok (6, 5) ∧
      (begin esp32 init 8 "x:b=5".toList).map (fun r => (r.1.buffer, r.1.text.length))
        = .ok (6, 5) := by
  refine ⟨by rfl, by rfl, by rfl, by rfl, by rfl⟩

/-- C18. `play` and `stop` do not move the cursor backward; a poll that
tokenizes a note moves it forward by at least one character; so a run of polls
from a state with the cursor at index `i` of a text of length `n` tokenizes at
most `n - i` notes. -/
theorem cursor_monotone (pf : Platform) (s : State) :
    (∀ (m now : Nat) (s' : State) (cmds : List Cmd) (oev : Option NoteEvent),
        play pf s m now = .ok (s', cmds, oev) →
        s'.text = s.text ∧ s.buffer ≤ s'.buffer ∧ (oev ≠ none → s.buffer + 1 ≤ s'.buffer)) ∧
      (∀ (s' : State) (cmds : List Cmd), stop s = .ok (s', cmds) →
        s'.text = s.text ∧ s.buffer ≤ s'.buffer) ∧
      (s.buffer ≤ s.text.length →
        ∀ ps : List (Nat × Nat), (polls pf s ps).2.1.length ≤ s.text.length - s.buffer) := by
  refine ⟨fun m now s' cmds oev h => ?_, fun s' cmds h => ?_,
    fun hin ps => polls_length pf s ps hin⟩
  · obtain ⟨h1, h2, h3, _⟩ := play_cursor pf s m now s' cmds oev h
    exact ⟨h1, h2, h3⟩
  · obtain ⟨h1, h2, _⟩ := stop_cursor s s' cmds h
    exact ⟨h1, h2⟩

/-- C18, witness: the song `x:c,d` from its first note (index 2, length 5): the
first poll moves the cursor from 2 to 4, and three polls tokenize not more than
5 - 2 notes. -/
theorem cursor_monotone_witness :
    ((2 : Nat) ≤ 4 ∧ (some (NoteEvent.mk 1 6 952) ≠ none → 2 + 1 ≤ 4)) ∧
      (polls avr (playingAt "x:c,d".toList 2) [(0, 0), (1000, 1000), (2000, 2000)]).2.1.length
        ≤ 5 - 2 := by
  have h := cursor_monotone avr (playingAt "x:c,d".toList 2)
  have h1 := h.1 0 0 { playingAt "x:c,d".toList 4 with noteDelay := 953 }
    [Cmd.noTone 8, Cmd.tone 8 (some 1047) 952] (some { note := 1, scale := 6, duration := 952 })
    (by rfl)
  exact ⟨⟨h1.2.1, h1.2.2⟩, h.2.2 (by decide) [(0, 0), (1000, 1000), (2000, 2000)]⟩

/-- C19. The `d=` field is stored in a byte after the test `num > 0`: `d=256`
passes the test and stores the default duration 0, and the first note without
duration digits then divides by zero. -/
theorem begin_zero_default_duration :
    (begin avr init 8 "x:d=256,o=5,b=120:c".toList).map
        (fun r => (r.1.default_dur, r.1.default_oct, r.1.bpm, r.1.buffer)) =
        .ok (0, 5, 120, 18) ∧
      (begin esp32 init 8 "x:d=256,o=5,b=120:c".toList).map
        (fun r => (r.1.default_dur, r.1.default_oct, r.1.bpm, r.1.buffer)) =
        .ok (0, 5, 120, 18) ∧
      (begin avr init 8 "x:d=256,o=5,b=120:c".toList).bind (fun r => play avr r.1 0 0)
        = .error Fault.divByZero ∧
      (begin esp32 init 8 "x:d=256,o=5,b=120:c".toList).bind (fun r => play esp32 r.1 0 0)
        = .error Fault.divByZero := by
  refine ⟨by rfl, by rfl, by rfl, by rfl⟩

/-- C20 (amended). A duration can be 0. In a state whose `wholenote` was
computed by `begin` from a positive `bpm`, a note token whose denominator in
force (the duration digits as read, or the default duration when they read as
0) is positive and not greater than `wholenote` gets a duration greater than 0,
and the transition sets `noteDelay` strictly past the clock reading of the
transition as long as the sum stays below 2^32. -/
theorem duration_positive (pf : Platform) (s : State) (t : Token) (rest : List Char)
    (m now : Nat) (hwf : t.WellFormed) (hL : t.letter ≠ NUL)
    (hat : At s.text s.buffer (t.chars ++ rest)) (hend : t.EndsBefore (rest.headD NUL))
    (hplay : s.playing = true) (hdue : s.noteDelay ≤ m)
    (hbpm : 0 < s.bpm) (hW : s.wholenote = Int.tdiv 60000 s.bpm * 4)
    (hden : if numOf pf t.digits ≠ 0 then
        0 < numOf pf t.digits ∧ numOf pf t.digits ≤ s.wholenote
      else 0 < s.default_dur ∧ (s.default_dur : Int) ≤ s.wholenote) :
    0 < (t.event pf s).duration ∧
      ((now : Int) + (t.event pf s).duration + 1 < 4294967296 →
        ∃ s' cmds, play pf s m now = .ok (s', cmds, some (t.event pf s)) ∧
          now < s'.noteDelay) := by
  have hWle : s.wholenote ≤ 240000 := by
    have := tdiv_le_self 60000 s.bpm (by norm_num) hbpm
    omega
  have hbase : 0 < t.base pf s ∧ t.base pf s ≤ 240000 := by
    unfold Token.base
    split
    · rename_i hn
      rw [if_pos hn] at hden
      exact ⟨tdiv_pos_of_le _ _ hden.1 hden.2,
        le_trans (tdiv_le_self _ _ (by omega) hden.1) hWle⟩
    · rename_i hn
      rw [if_neg hn] at hden
      exact ⟨tdiv_pos_of_le _ _ (by omega) hden.2,
        le_trans (tdiv_le_self _ _ (by omega) (by omega)) hWle⟩
  have hd1 := dotted_bounds (t.base pf s) hbase.1 (by norm_num; omega)
  have hd2 := dotted_bounds (dotted (t.base pf s)) (by omega) (by norm_num; omega)
  have hpos : 0 < (t.event pf s).duration := by
    show 0 < (if t.dot2 then dotted (if t.dot1 then dotted (t.base pf s) else t.base pf s)
      else if t.dot1 then dotted (t.base pf s) else t.base pf s)
    split
    · split
      · omega
      · omega
    · split
      · omega
      · omega
  have hD0 : numOf pf t.digits = 0 → s.default_dur ≠ 0 := by
    intro hn
    rw [if_neg (by simpa using hn)] at hden
    omega
  refine ⟨hpos, fun hsum => ⟨_, _, play_token pf s t rest m now hwf hL hat hend hD0 hplay hdue, ?_⟩⟩
  show now < (if (t.event pf s).note = 0 then toULong ((now : Int) + (t.event pf s).duration)
    else toULong ((now : Int) + (t.event pf s).duration + 1))
  split
  · rw [toULong_of_lt _ (by omega) (by omega)]
    omega
  · rw [toULong_of_lt _ (by omega) (by omega)]
    omega

/-- C20, witness: the pause `32p` at 63 beats per minute lasts 119 ms; polled at
reading 7 it sets `noteDelay` to 126. -/
theorem duration_positive_witness :
    (0 : Int) < (Token.event ⟨['3', '2'], 'p', false, false, none, false, false⟩ avr
        (playingAt "x:32p".toList 2)).duration ∧
      ∃ s' cmds, play avr (playingAt "x:32p".toList 2) 7 7 =
          .ok (s', cmds, some (Token.event ⟨['3', '2'], 'p', false, false, none, false, false⟩
            avr (playingAt "x:32p".toList 2))) ∧
        7 < s'.noteDelay := by
  have h := duration_positive avr (playingAt "x:32p".toList 2)
    ⟨['3', '2'], 'p', false, false, none, false, false⟩ [] 7 7
    ⟨by decide, by decide, by decide, by decide⟩ (by decide)
    (at_of_le "x:32p".toList 2 (by decide)) (endsBefore_nul _) rfl (by decide) (by decide)
    (by decide) (by decide)
  exact ⟨h.1, h.2 (by decide)⟩

/-- C20, counterexample: at 63 beats per minute the whole note lasts 3808 ms and
the pause `4000p` gets the duration 3808 / 4000 = 0; polled at reading 7 it
leaves `noteDelay` at 7. -/
theorem duration_positive_counterexample :
    (begin avr init 8 "x:4000p".toList).map (fun r => (r.1.bpm, r.1.wholenote)) = .ok (63, 3808) ∧
      (begin avr init 8 "x:4000p".toList).bind (fun r => play avr r.1 7 7) =
        .ok ({ playingAt "x:4000p".toList 7 with noteDelay := 7 }, [Cmd.noTone 8],
             some { note := 0, scale := 6, duration := 0 }) ∧
      (begin esp32 init 8 "x:4000p".toList).bind (fun r => play esp32 r.1 7 7) =
        .ok ({ playingAt "x:4000p".toList 7 with noteDelay := 7 }, [Cmd.noTone 8],
             some { note := 0, scale := 6, duration := 0 }) := by
  refine ⟨by rfl, by rfl, by rfl⟩

end rtttl
